import Mathlib

/-!
# mlpack: `LoadCSV` and the constructor of `CopyTask`, a shallow embedding

## LoadCSV (`core/data/load_csv.hpp`)

The class `LoadCSV` reads a comma separated text file into a dense matrix and a
`DatasetInfo` table of category codes.  The embedding keeps the shape of the
source:

* `IStream` is the `std::ifstream inFile` member: the text, the read position
  and the `eofbit` / `failbit` flags; `getline` is `std::getline`.
* The `boost::spirit::qi` parsers the class builds (`CreateNumRule`,
  `CreateCharRule`, the list operator `%`, semantic actions) are functions on
  the remaining characters of a line.  `qi::parse` returns whether the parser
  matched a prefix; the attributes handed to the semantic action are collected
  in firing order.
* `arma::Mat<T>` is a shape plus the log of the element assignments made since
  `set_size` (which leaves the elements indeterminate).
* `T` is a signed integral type of `w` bits.

## CopyTask (`methods/ann/augmented/tasks/copy_impl.hpp`)

Only the constructor is embedded; its `size_t` arguments are natural numbers.
-/

/-! # CopyTask -/

namespace Tasks

/-- The exception `std::invalid_argument` with its message. -/
inductive TaskError where
  | invalid_argument (what : String)
deriving DecidableEq, Repr

/-- The data members of `CopyTask`. -/
structure CopyTask where
  maxLength : Nat
  nRepeats : Nat
  addSeparator : Bool
deriving DecidableEq, Repr

/-- The constructor `CopyTask::CopyTask(maxLength, nRepeats, addSeparator)`: the members
are initialised from the arguments, then the two checks may throw. -/
def CopyTask.new (maxLength nRepeats : Nat) (addSeparator : Bool) :
    Except TaskError CopyTask :=
  let task : CopyTask := ⟨maxLength, nRepeats, addSeparator⟩
  if task.maxLength ≤ 1 then
    .error (.invalid_argument
      ("CopyTask::CopyTask(): maximum sequence length (" ++ toString task.maxLength ++ ") " ++
        "should be at least 2!" ++ "\n"))
  else if task.nRepeats ≤ 0 then
    .error (.invalid_argument
      ("CopyTask::CopyTask(): repetition count (" ++ toString task.nRepeats ++ ") " ++
        "is not positive!" ++ "\n"))
  else .ok task

end Tasks

/-! # LoadCSV -/

namespace LoadCSV

/-! ## The input stream -/

/-- The `std::ifstream inFile` member: the text of the file, the read position
and the two state flags the code depends on. -/
structure IStream where
  text : List Char
  pos : Nat
  eofbit : Bool
  failbit : Bool
deriving DecidableEq, Repr

/-- A freshly opened file (the constructor of `LoadCSV`). -/
def IStream.open (text : List Char) : IStream := ⟨text, 0, false, false⟩

/-- The call `inFile.clear()`: resets the state flags. -/
def IStream.clear (s : IStream) : IStream := { s with eofbit := false, failbit := false }

/-- The call `inFile.seekg(0, std::ios::beg)`; a seek on a stream whose `failbit` is set
does nothing. -/
def IStream.seekg0 (s : IStream) : IStream :=
  if s.failbit then s else { s with pos := 0, eofbit := false }

/-- The characters not yet read. -/
def IStream.remaining (s : IStream) : List Char := s.text.drop s.pos

/-- The call `std::getline(inFile, line)`: the flag says whether the stream is still good
afterwards (the value the `while` tests), the list is `line`.  Characters are
extracted up to and excluding the next `'\n'`, which is consumed; reaching the end
of the text sets `eofbit`; extracting nothing at all sets `failbit`. -/
def getline (s : IStream) : Bool × List Char × IStream :=
  if s.eofbit || s.failbit then (false, [], { s with failbit := true })
  else
    match s.remaining with
    | [] => (false, [], { s with eofbit := true, failbit := true })
    | c :: cs =>
      let line := (c :: cs).takeWhile (fun x => x != '\n')
      if line.length < (c :: cs).length then
        (true, line, { s with pos := s.pos + line.length + 1 })
      else
        (true, line, { s with pos := s.pos + line.length, eofbit := true })

/-- The loop `while(std::getline(inFile, line)) ++row;` of `RowSize`, run for at most
`fuel` iterations. -/
def rowSizeLoop : Nat → IStream → Nat → Nat × IStream
  | 0, s, row => (row, s)
  | fuel + 1, s, row =>
    match getline s with
    | (false, _, s') => (row, s')
    | (true, _, s') => rowSizeLoop fuel s' (row + 1)

/-- The method `LoadCSV::RowSize`.  Every successful `getline` consumes a character or
sets `eofbit`, so `text.length + 1` iterations always reach the failing `getline`. -/
def RowSize (inFile : IStream) : Nat × IStream :=
  rowSizeLoop (inFile.text.length + 1) inFile.clear.seekg0 0

/-- The lines successive `getline` calls return, run for at most `fuel` calls: what the
loops `while(std::getline(inFile, line)) { ... }` of the parsers iterate over (their
bodies never touch `inFile`). -/
def readLinesLoop : Nat → IStream → List (List Char) × IStream
  | 0, s => ([], s)
  | fuel + 1, s =>
    match getline s with
    | (false, _, s') => ([], s')
    | (true, line, s') =>
      let r := readLinesLoop fuel s'
      (line :: r.1, r.2)

/-- All lines of the stream from its current position. -/
def readLines (s : IStream) : List (List Char) × IStream :=
  readLinesLoop (s.text.length + 1) s

/-! ## The qi parsers -/

/-- The parser `*qi::char_(" ")` (also under `qi::omit` and the optional `-`, which
change nothing: a Kleene star always matches): skips the leading spaces. -/
def skipSpaces (s : List Char) : List Char := s.dropWhile (fun c => c == ' ')

/-- A decimal digit `'0'..'9'`. -/
def isDigit (c : Char) : Bool := decide (48 ≤ c.toNat) && decide (c.toNat ≤ 57)

/-- The value of a decimal digit. -/
def digitVal (c : Char) : Nat := c.toNat - 48

/-- The value of a run of decimal digits. -/
def digitsVal (ds : List Char) : Nat := ds.foldl (fun acc d => 10 * acc + digitVal d) 0

/-- The largest value of the element type `T`, a signed integer of `w` bits. -/
def maxT (w : Nat) : Int := 2 ^ (w - 1) - 1

/-- The smallest value of the element type `T`. -/
def minT (w : Nat) : Int := -(2 ^ (w - 1))

/-- The conversion `static_cast<T>(n)` of a `size_t` to the signed `w`-bit type `T`. -/
def castT (w : Nat) (n : Nat) : Int := ((n : Int) + 2 ^ (w - 1)) % 2 ^ w - 2 ^ (w - 1)

/-- The parser `qi::int_parser<T>` that `ElemParser::Parser<T>` returns for an integral
`T`: an optional sign, then the longest run of digits, which must not be empty; a
value that does not fit `T` makes the parser fail. -/
def intParser (w : Nat) (s : List Char) : Option (Int × List Char) :=
  match s with
  | [] => none
  | c :: cs =>
    let neg := c == '-'
    let body := if neg || c == '+' then cs else c :: cs
    let ds := body.takeWhile isDigit
    if ds.isEmpty then none
    else
      let v : Int := if neg then -(digitsVal ds : Int) else (digitsVal ds : Int)
      if minT w ≤ v ∧ v ≤ maxT w then some (v, body.dropWhile isDigit) else none

/-- The rule of `CreateNumRule<T>`:
`qi::skip(qi::char_(" "))[elemParser] >> -qi::omit[*qi::char_(" ")]`. -/
def CreateNumRule (w : Nat) (s : List Char) : Option (Int × List Char) :=
  match intParser w (skipSpaces s) with
  | none => none
  | some (v, r) => some (v, skipSpaces r)

/-- The characters `~qi::char_(" ,\r\n")` accepts. -/
def isTokenChar (c : Char) : Bool := !(c == ' ' || c == ',' || c == '\r' || c == '\n')

/-- The rule of `CreateCharRule`:
`-qi::omit[*qi::char_(" ")] >> qi::raw[*~qi::char_(" ,\r\n")] >> -qi::omit[*qi::char_(" ")]`;
its attribute is the range `qi::raw` captured. -/
def CreateCharRule (s : List Char) : Option (List Char × List Char) :=
  let s1 := skipSpaces s
  some (s1.takeWhile isTokenChar, skipSpaces (s1.dropWhile isTokenChar))

/-- The characters `~qi::char_(",\r\n")` accepts. -/
def isFieldChar (c : Char) : Bool := !(c == ',' || c == '\r' || c == '\n')

/-- The parser `qi::raw[*~qi::char_(",\r\n")]` of `ColSize`. -/
def rawField (s : List Char) : Option (List Char × List Char) :=
  some (s.takeWhile isFieldChar, s.dropWhile isFieldChar)

/-- What `qi::parse(begin, end, p[action] % ",")` did: whether the parser matched (the
value `qi::parse` returns), the attributes the action was called with, in order, and
the input left at `begin`. -/
structure ListResult (α : Type) where
  matched : Bool
  attrs : List α
  rest : List Char
deriving DecidableEq, Repr

/-- The loop of the list operator `p % ","` after its first element: while a `","` and
then another `p` match, the action fires on the attribute of `p`; the loop stops in
front of the first `","` that no element follows.  At most `fuel` rounds. -/
def listLoop {α : Type} (p : List Char → Option (α × List Char)) :
    Nat → List Char → List α × List Char
  | 0, s => ([], s)
  | fuel + 1, s =>
    match s with
    | [] => ([], s)
    | c :: s1 =>
      if c == ',' then
        match p s1 with
        | none => ([], s)
        | some (a, s2) =>
          let r := listLoop p fuel s2
          (a :: r.1, r.2)
      else ([], s)

/-- The call `qi::parse(begin, end, p[action] % ",")`: the list needs one element to
match; every round of the loop consumes a `","`, so the length of the input left after
the first element bounds the rounds. -/
def parseList {α : Type} (p : List Char → Option (α × List Char)) (s : List Char) :
    ListResult α :=
  match p s with
  | none => ⟨false, [], s⟩
  | some (a, s1) =>
    let r := listLoop p s1.length s1
    ⟨true, a :: r.1, r.2⟩

/-- The method `LoadCSV::ColSize`: `col` counts the calls of `findColSize`.  The
`boost::spirit::istream_iterator` has read one character past the input the parser
consumed, or has hit the end of the file. -/
def ColSize (inFile : IStream) : Nat × IStream :=
  let f := inFile.clear.seekg0
  let r := parseList rawField f.text
  let consumed := f.text.length - r.rest.length
  (r.attrs.length,
    if consumed < f.text.length then { f with pos := consumed + 1 }
    else { f with pos := f.text.length, eofbit := true, failbit := true })

/-! ## The matrix and the mapping table -/

/-- One element assignment `inout(row, col) = val`. -/
structure Write where
  row : Nat
  col : Nat
  val : Int
deriving DecidableEq, Repr

/-- The matrix `arma::Mat<T>`: its shape and the element assignments made since
`set_size`, oldest first.  `set_size` does not initialise the elements, so an element
holds a known value only once it has been assigned. -/
structure Mat where
  n_rows : Nat
  n_cols : Nat
  writes : List Write
deriving DecidableEq, Repr

/-- The call `inout.set_size(rows, cols)`. -/
def Mat.set_size (rows cols : Nat) : Mat := ⟨rows, cols, []⟩

/-- The assignment `inout(r, c) = v`: the store is added to the log.  The log records
which stores the code issues; for a store inside the shape it also says what the
element holds afterwards, and only such stores are given that meaning (what
Armadillo does with a store outside the shape is not part of the embedding). -/
def Mat.assign (m : Mat) (r c : Nat) (v : Int) : Mat :=
  { m with writes := m.writes ++ [⟨r, c, v⟩] }

/-- How many times the element `(r, c)` has been assigned. -/
def Mat.writeCount (m : Mat) (r c : Nat) : Nat :=
  m.writes.countP (fun x => x.row == r && x.col == c)

/-- The value of the element `(r, c)`: the last value assigned to it, `none` while it
is still indeterminate. -/
def Mat.elem (m : Mat) (r c : Nat) : Option Int :=
  (m.writes.reverse.find? (fun x => x.row == r && x.col == c)).map (fun x => x.val)

/-- Modelled from the spec: the class `DatasetInfo` of `dataset_info.hpp`, which the
repository does not include here.  It is the Category Mapping Table of the spec: a
dimensionality and, per dimension, the string tokens in first-seen order; the code of
a token is its index in that list (codes are assigned sequentially from 0).  The
spec gives no bound check on the dimension index, so none is made. -/
structure DatasetInfo where
  dimensionality : Nat
  maps : Nat → List (List Char)

/-- Modelled from the spec: the constructor `DatasetInfo(dimensionality)`; no dimension has a
mapping yet. -/
def DatasetInfo.new (dimensionality : Nat) : DatasetInfo := ⟨dimensionality, fun _ => []⟩

/-- Modelled from the spec: the method `DatasetInfo::Dimensionality`. -/
def DatasetInfo.Dimensionality (info : DatasetInfo) : Nat := info.dimensionality

/-- Modelled from the spec: the method `DatasetInfo::NumMappings`, the dimension's mapping
count. -/
def DatasetInfo.NumMappings (info : DatasetInfo) (dimension : Nat) : Nat :=
  (info.maps dimension).length

/-- Modelled from the spec: the method `DatasetInfo::MapString`: the code of the token in
the dimension, a new code (the next one) if the token is unseen there. -/
def DatasetInfo.MapString (info : DatasetInfo) (token : List Char) (dimension : Nat) :
    Nat × DatasetInfo :=
  let toks := info.maps dimension
  if toks.contains token then (toks.indexOf token, info)
  else
    (toks.length,
      { info with maps := fun d => if d = dimension then toks ++ [token] else info.maps d })

/-! ## The two parsers -/

/-- The exception `std::runtime_error("LoadCSV cannot parse categories")`. -/
inductive LoadError where
  | cannotParseCategories
deriving DecidableEq, Repr

/-- The variables the semantic actions capture by reference: the matrix, the mapping
table and the two cursors `row` and `col`. -/
structure ParseState where
  inout : Mat
  infoSet : DatasetInfo
  row : Nat
  col : Nat

/-- The action `setNum` of `NonTranposeParse`: `inout(row, col++) = val`. -/
def setNum (st : ParseState) (val : Int) : ParseState :=
  { st with inout := st.inout.assign st.row st.col val, col := st.col + 1 }

/-- The action `setCharClass` of `NonTranposeParse`:
`inout(row, col++) = static_cast<T>(infoSet.MapString(token, row))`. -/
def setCharClass (w : Nat) (st : ParseState) (token : List Char) : ParseState :=
  let m := st.infoSet.MapString token st.row
  { st with inout := st.inout.assign st.row st.col (castT w m.1), infoSet := m.2,
            col := st.col + 1 }

/-- The body of the `while` loop of `NonTranposeParse` for one line. -/
def nonTranposeLine (w : Nat) (st : ParseState) (line : List Char) :
    Except LoadError ParseState :=
  let num := parseList (CreateNumRule w) line
  let st1 := num.attrs.foldl setNum st
  let allNumber := num.matched
  if allNumber then .ok { st1 with row := st1.row + 1, col := 0 }
  else
    let st2 := { st1 with col := 0 }
    let chr := parseList CreateCharRule line
    let st3 := chr.attrs.foldl (setCharClass w) st2
    let canParse := chr.matched
    if canParse then .ok { st3 with row := st3.row + 1, col := 0 }
    else .error LoadError.cannotParseCategories

/-- The `while` loop of `NonTranposeParse` over the lines of the file. -/
def nonTranposeLoop (w : Nat) : List (List Char) → ParseState → Except LoadError ParseState
  | [], st => .ok st
  | line :: lines, st =>
    match nonTranposeLine w st line with
    | .error e => .error e
    | .ok st1 => nonTranposeLoop w lines st1

/-- What a load leaves behind: the matrix, the mapping table and the stream. -/
structure LoadResult where
  inout : Mat
  infoSet : DatasetInfo
  inFile : IStream

/-- The method `LoadCSV::NonTranposeParse`. -/
def NonTranposeParse (w : Nat) (inFile : IStream) : Except LoadError LoadResult :=
  let rs := RowSize inFile
  let infoSet := DatasetInfo.new rs.1
  let cs := ColSize rs.2
  let inout := Mat.set_size infoSet.Dimensionality cs.1
  let lines := readLines cs.2.clear.seekg0
  match nonTranposeLoop w lines.1 ⟨inout, infoSet, 0, 0⟩ with
  | .error e => .error e
  | .ok st => .ok ⟨st.inout, st.infoSet, lines.2⟩

/-- The action `setNum` of `TranposeParseImpl`: `inout(row++, col) = val`. -/
def setNumT (st : ParseState) (val : Int) : ParseState :=
  { st with inout := st.inout.assign st.row st.col val, row := st.row + 1 }

/-- The action `setCharClass` of `TranposeParseImpl`:
`inout(row++, col) = static_cast<T>(infoSet.MapString(token, col))`. -/
def setCharClassT (w : Nat) (st : ParseState) (token : List Char) : ParseState :=
  let m := st.infoSet.MapString token st.col
  { st with inout := st.inout.assign st.row st.col (castT w m.1), infoSet := m.2,
            row := st.row + 1 }

/-- The `while` loop of `TranposeParseImpl` over the lines of the file; the flag is the
value `TranposeParseImpl` returns (`false` from the `return false` inside the loop). -/
def tranposeLoop (w : Nat) : List (List Char) → ParseState → Except LoadError (Bool × ParseState)
  | [], st => .ok (true, st)
  | line :: lines, st =>
    let num := parseList (CreateNumRule w) line
    let st1 := num.attrs.foldl setNumT st
    let allNumber := num.matched
    if allNumber then tranposeLoop w lines { st1 with row := 0, col := st1.col + 1 }
    else
      let dimension := st1.infoSet.NumMappings st1.col
      if (dimension == 0 && st1.row == 0) || dimension != 0 then
        let st2 := { st1 with row := 0 }
        let chr := parseList CreateCharRule line
        let st3 := chr.attrs.foldl (setCharClassT w) st2
        let canParse := chr.matched
        if canParse then tranposeLoop w lines { st3 with row := 0, col := st3.col + 1 }
        else .error LoadError.cannotParseCategories
      else .ok (false, st1)

/-- The method `LoadCSV::TranposeParseImpl`. -/
def TranposeParseImpl (w : Nat) (r : LoadResult) : Except LoadError (Bool × LoadResult) :=
  let lines := readLines r.inFile.clear.seekg0
  match tranposeLoop w lines.1 ⟨r.inout, r.infoSet, 0, 0⟩ with
  | .error e => .error e
  | .ok (b, st) => .ok (b, ⟨st.inout, st.infoSet, lines.2⟩)

/-- The loop `while(!TranposeParseImpl(inout, infoSet)) {}` of `TranposeParse`, for at
most `fuel` calls of `TranposeParseImpl`; `none` when the calls are used up. -/
def tranposeRetry (w : Nat) : Nat → LoadResult → Option (Except LoadError LoadResult)
  | 0, _ => none
  | fuel + 1, r =>
    match TranposeParseImpl w r with
    | .error e => some (.error e)
    | .ok (true, r1) => some (.ok r1)
    | .ok (false, r1) => tranposeRetry w fuel r1

/-- The method `LoadCSV::TranposeParse`, its retry loop bounded by `fuel` passes. -/
def TranposeParse (w : Nat) (fuel : Nat) (inFile : IStream) :
    Option (Except LoadError LoadResult) :=
  let cs := ColSize inFile
  let infoSet := DatasetInfo.new cs.1
  let rs := RowSize cs.2
  let inout := Mat.set_size infoSet.Dimensionality rs.1
  tranposeRetry w fuel ⟨inout, infoSet, rs.2⟩

/-- The method `LoadCSV::Load`; `fuel` bounds the passes of the column-major retry
loop. -/
def Load (w : Nat) (fuel : Nat) (inFile : IStream) (transpose : Bool) :
    Option (Except LoadError LoadResult) :=
  if transpose then TranposeParse w fuel inFile
  else some (NonTranposeParse w inFile)

/-- The matrix a load produced, `none` unless the load returned. -/
def loadedMat : Option (Except LoadError LoadResult) → Option Mat
  | some (.ok r) => some r.inout
  | _ => none

/-- The mapping table a load produced, `none` unless the load returned. -/
def loadedInfo : Option (Except LoadError LoadResult) → Option DatasetInfo
  | some (.ok r) => some r.infoSet
  | _ => none

/-! ## Auxiliary definitions for the statements -/

/-- The lines of a text, split at every `'\n'`, with `cur` the part of the current line
already seen; a last line without `'\n'` counts when it is not empty. -/
def splitLines : List Char → List Char → List (List Char)
  | cur, [] => if cur.isEmpty then [] else [cur]
  | cur, c :: cs => if c == '\n' then cur :: splitLines [] cs else splitLines (cur ++ [c]) cs

/-- The lines the parsers iterate over when the file holds `text`. -/
def fileLines (text : List Char) : List (List Char) :=
  (readLines (IStream.open text).clear.seekg0).1

/-- The assignments `setNum` / `setCharClass` of `NonTranposeParse` make for the values
of one line: along matrix row `r`, from column `c` on. -/
def rowWrites (r c : Nat) : List Int → List Write
  | [] => []
  | v :: vs => ⟨r, c, v⟩ :: rowWrites r (c + 1) vs

/-- The assignments the actions of `TranposeParseImpl` make for the values of one line:
down matrix column `c`, from row `r` on. -/
def colWrites (r c : Nat) : List Int → List Write
  | [] => []
  | v :: vs => ⟨r, c, v⟩ :: colWrites (r + 1) c vs

/-- The codes `MapString` returns for the tokens of one line in dimension `dim`, cast to
`T`, and the table afterwards. -/
def mapTokens (w : Nat) (info : DatasetInfo) (dim : Nat) :
    List (List Char) → List Int × DatasetInfo
  | [] => ([], info)
  | t :: ts =>
    let m := info.MapString t dim
    let r := mapTokens w m.2 dim ts
    (castT w m.1 :: r.1, r.2)

/-- The values both parsers store for one line, the line being dimension `dim` of the
table: the numbers of the numeric list parse when it matches, the category codes of
the tokens of the generic list parse otherwise. -/
def lineValues (w : Nat) (info : DatasetInfo) (dim : Nat) (line : List Char) :
    List Int × DatasetInfo :=
  let num := parseList (CreateNumRule w) line
  if num.matched then (num.attrs, info)
  else mapTokens w info dim (parseList CreateCharRule line).attrs

/-- The values stored for the lines of a file, the first of them being line `j`. -/
def allValues (w : Nat) : Nat → DatasetInfo → List (List Char) → List (List Int) × DatasetInfo
  | _, info, [] => ([], info)
  | j, info, line :: lines =>
    let r := lineValues w info j line
    let rs := allValues w (j + 1) r.2 lines
    (r.1 :: rs.1, rs.2)

/-- The assignments of `NonTranposeParse` for the values of the lines `j`, `j + 1`, ... -/
def gridWrites : Nat → List (List Int) → List Write
  | _, [] => []
  | j, vs :: vss => rowWrites j 0 vs ++ gridWrites (j + 1) vss

/-- The assignments of `TranposeParseImpl` for the values of the lines `j`, `j + 1`, ... -/
def gridWritesT : Nat → List (List Int) → List Write
  | _, [] => []
  | j, vs :: vss => colWrites 0 j vs ++ gridWritesT (j + 1) vss

/-- The value `RowSize()` returns when the file holds `text`. -/
def rowCount (text : List Char) : Nat := (RowSize (IStream.open text)).1

/-- The value `ColSize()` returns when the file holds `text`. -/
def colCount (text : List Char) : Nat := (ColSize (IStream.open text)).1

/-- The stream after a parser has read the file to its end. -/
def fileEnd (text : List Char) : IStream := (readLines (IStream.open text).clear.seekg0).2

/-! ### Purely numeric rectangular files -/

/-- A field of a purely numeric file: spaces, an optional sign (`some true` is `'-'`,
`some false` is `'+'`), a run of digits, spaces. -/
structure NumField where
  lead : Nat
  sign : Option Bool
  digits : List Char
  trail : Nat
deriving DecidableEq, Repr

/-- The text of a sign. -/
def signText : Option Bool → List Char
  | none => []
  | some true => ['-']
  | some false => ['+']

/-- The text of a numeric field. -/
def NumField.text (f : NumField) : List Char :=
  List.replicate f.lead ' ' ++ (signText f.sign ++ (f.digits ++ List.replicate f.trail ' '))

/-- The number a run of decimal digits denotes, most significant digit first. -/
def literalValue (ds : List Char) : Nat := Nat.ofDigits 10 ((ds.map digitVal).reverse)

/-- The number a numeric field denotes. -/
def NumField.value (f : NumField) : Int :=
  if f.sign = some true then -(literalValue f.digits : Int) else (literalValue f.digits : Int)

/-- A numeric field is an integer literal of the element type `T` (`w` bits, signed): at
least one digit, only digits, and a value in the range of `T`. -/
def NumField.valid (w : Nat) (f : NumField) : Bool :=
  !f.digits.isEmpty && f.digits.all isDigit &&
    decide (minT w ≤ f.value) && decide (f.value ≤ maxT w)

/-- The text of the fields of a record after its first: each preceded by a `','`. -/
def tailText : List NumField → List Char
  | [] => []
  | f :: fs => ',' :: (f.text ++ tailText fs)

/-- The text of a record, without its line terminator: its fields separated by `','`. -/
def recordText : List NumField → List Char
  | [] => []
  | f :: fs => f.text ++ tailText fs

/-- The text of a file of records, each terminated by `'\n'`. -/
def numericText : List (List NumField) → List Char
  | [] => []
  | fs :: recs => recordText fs ++ '\n' :: numericText recs

/-- The numeric field that is just the digit `d`. -/
def digitField (d : Char) : NumField := ⟨0, none, [d], 0⟩

/-- The records of the file `"1,2,3\n4,5,6\n"`. -/
def records123456 : List (List NumField) :=
  [[digitField '1', digitField '2', digitField '3'],
   [digitField '4', digitField '5', digitField '6']]

/-- How many values a parser stores for a line: the numbers the numeric list parse
yielded when it matched, the tokens of the generic list parse otherwise. -/
def fieldsStored (w : Nat) (line : List Char) : Nat :=
  let num := parseList (CreateNumRule w) line
  if num.matched then num.attrs.length else (parseList CreateCharRule line).attrs.length

/-- The elements `(r, 0), (r, 1), ..., (r, n - 1)` of a matrix, `none` where the element
was never assigned. -/
def Mat.rowElems (m : Mat) (r n : Nat) : List (Option Int) :=
  (List.range n).map (fun c => m.elem r c)

/-- The token lists of the dimensions `0, ..., n - 1` of a mapping table, as strings. -/
def DatasetInfo.tables (info : DatasetInfo) (n : Nat) : List (List String) :=
  (List.range n).map (fun d => (info.maps d).map String.mk)

/-- Whether a load threw its exception. -/
def loadFailed : Option (Except LoadError LoadResult) → Bool
  | some (.error _) => true
  | _ => false

/-- The first record of a text: its characters before the first `'\r'` or `'\n'`. -/
def firstRecord (text : List Char) : List Char :=
  text.takeWhile (fun c => !(c == '\r' || c == '\n'))

/-- A call of one of the two sizing methods. -/
inductive SizingCall where
  | rowSize
  | colSize
deriving DecidableEq, Repr

/-- A sizing call on the stream: the value it returns and the stream it leaves. -/
def SizingCall.run : SizingCall → IStream → Nat × IStream
  | .rowSize, s => RowSize s
  | .colSize, s => ColSize s

/-- A sequence of sizing calls on the stream: the values they return, in order, and the
stream the last one leaves. -/
def runSizing : List SizingCall → IStream → List Nat × IStream
  | [], s => ([], s)
  | c :: cs, s =>
    let r := c.run s
    let rs := runSizing cs r.2
    (r.1 :: rs.1, rs.2)

/-- The number of calls of `TranposeParseImpl` the loop
`while(!TranposeParseImpl(inout, infoSet)) {}` makes until it is left (by a `true`
result or by the exception), `none` when `fuel` calls do not leave it. -/
def tranposePasses (w : Nat) : Nat → LoadResult → Option Nat
  | 0, _ => none
  | fuel + 1, r =>
    match TranposeParseImpl w r with
    | .error _ => some 1
    | .ok (true, _) => some 1
    | .ok (false, r1) => (tranposePasses w fuel r1).map (fun n => n + 1)

/-- The number of calls of `TranposeParseImpl` that `TranposeParse` makes on a file. -/
def TranposeParsePasses (w : Nat) (fuel : Nat) (inFile : IStream) : Option Nat :=
  let cs := ColSize inFile
  let infoSet := DatasetInfo.new cs.1
  let rs := RowSize cs.2
  let inout := Mat.set_size infoSet.Dimensionality rs.1
  tranposePasses w fuel ⟨inout, infoSet, rs.2⟩

/-- The assignment `(r, c) := v` performed as `(c, r) := v`. -/
def Write.swap (x : Write) : Write := ⟨x.col, x.row, x.val⟩

/-- The index-swapped matrix: the shape swapped, and every assignment `(r, c) := v`
performed, in the same order, as `(c, r) := v`. -/
def Mat.swapped (m : Mat) : Mat := ⟨m.n_cols, m.n_rows, m.writes.map Write.swap⟩

/-- The table with another dimensionality and the same mappings. -/
def DatasetInfo.setDim (d : Nat) (info : DatasetInfo) : DatasetInfo := ⟨d, info.maps⟩

/-- The calls `MapString(token, dimension)` a parser makes for the lines `j`, `j + 1`,
... of a file, in order: for every line the numeric list parse does not match, the
tokens of the generic list parse, with the index of the line as dimension. -/
def mapCalls (w : Nat) : Nat → List (List Char) → List (List Char × Nat)
  | _, [] => []
  | j, line :: lines =>
    (if (parseList (CreateNumRule w) line).matched then []
      else (parseList CreateCharRule line).attrs.map (fun t => (t, j))) ++
    mapCalls w (j + 1) lines

/-- The table after a sequence of `MapString` calls. -/
def applyCalls (info : DatasetInfo) (calls : List (List Char × Nat)) : DatasetInfo :=
  calls.foldl (fun i c => (i.MapString c.1 c.2).2) info

/-! ### Fields with spaces around them -/

/-- A rule of the shape `skip spaces, core parser, skip spaces`, the shape of the rules
of `CreateNumRule` and `CreateCharRule`. -/
def spaced {α : Type} (core : List Char → Option (α × List Char)) (s : List Char) :
    Option (α × List Char) :=
  match core (skipSpaces s) with
  | none => none
  | some (a, r) => some (a, skipSpaces r)

/-- The core parser `qi::raw[*~qi::char_(" ,\r\n")]` of `CreateCharRule`. -/
def tokenCore (s : List Char) : Option (List Char × List Char) :=
  some (s.takeWhile isTokenChar, s.dropWhile isTokenChar)

/-- A field of a line (`body`: its text between two delimiters, or between a delimiter and
the start or the end of the line) and the numbers of `' '` characters inserted
immediately before and immediately after it. -/
structure PadField where
  lead : Nat
  body : List Char
  trail : Nat
deriving DecidableEq, Repr

/-- The field with the spaces inserted. -/
def PadField.padded (f : PadField) : List Char :=
  List.replicate f.lead ' ' ++ (f.body ++ List.replicate f.trail ' ')

/-- The fields of a line after its first, each preceded by a `','`, as they are. -/
def baseTail : List PadField → List Char
  | [] => []
  | f :: fs => ',' :: (f.body ++ baseTail fs)

/-- The fields of a line after its first, with the spaces inserted. -/
def padTail : List PadField → List Char
  | [] => []
  | f :: fs => ',' :: (f.padded ++ padTail fs)

/-- A line as it is: its fields separated by `','`. -/
def baseLine : List PadField → List Char
  | [] => []
  | f :: fs => f.body ++ baseTail fs

/-- A line with the spaces inserted around its fields. -/
def padLine : List PadField → List Char
  | [] => []
  | f :: fs => f.padded ++ padTail fs

/-- A text as it is: lines terminated by `'\n'`, then a last line without terminator
(`[]` when the text has none). -/
def baseText : List (List PadField) → List PadField → List Char
  | [], last => baseLine last
  | l :: ls, last => baseLine l ++ '\n' :: baseText ls last

/-- The text with the spaces inserted around its fields. -/
def padText : List (List PadField) → List PadField → List Char
  | [], last => padLine last
  | l :: ls, last => padLine l ++ '\n' :: padText ls last

/-- The lines of such a text: the terminated ones, then the last one if there is one. -/
def textLines (ls : List (List PadField)) (last : List PadField) : List (List PadField) :=
  ls ++ (if last = [] then [] else [last])

/-- The text made of the given lines, each terminated by `'\n'`, and of a last line
without terminator. -/
def linesText : List (List Char) → List Char → List Char
  | [], last => last
  | l :: ls, last => l ++ '\n' :: linesText ls last

/-- A text without its `' '` characters. -/
def despace (t : List Char) : List Char := t.filter (fun c => c != ' ')

/-- The terminated lines of the text `"red,1\nblue,2\n"`, with spaces to insert. -/
def paddedLines : List (List PadField) :=
  [[⟨1, "red".toList, 2⟩, ⟨0, "1".toList, 1⟩], [⟨0, "blue".toList, 0⟩, ⟨3, "2".toList, 0⟩]]

/-- The last line `"x y,"` of a text (no terminator), with spaces to insert. -/
def paddedLast : List PadField := [⟨2, "x y".toList, 0⟩, ⟨0, [], 1⟩]

/-- The terminated line of the text `"1\n"`. -/
def lineOne : List (List PadField) := [[⟨0, "1".toList, 0⟩]]

/-- An empty field after the last `'\n'`, with one space to insert before it. -/
def spaceAfterLast : List PadField := [⟨1, [], 0⟩]

/-! ## Lines -/

theorem splitLines_no_nl (t : List Char) :
    ∀ cur, (∀ c ∈ t, c ≠ '\n') →
      splitLines cur t = if (cur ++ t).isEmpty then [] else [cur ++ t] := by
  induction t with
  | nil => intro cur _; simp [splitLines]
  | cons c cs ih =>
    intro cur h
    have hc : c ≠ '\n' := h c (List.mem_cons_self _ _)
    have hcs : ∀ x ∈ cs, x ≠ '\n' := fun x hx => h x (List.mem_cons_of_mem _ hx)
    simp [splitLines, hc, ih _ hcs]

theorem splitLines_line (line rest : List Char) :
    ∀ cur, (∀ c ∈ line, c ≠ '\n') →
      splitLines cur (line ++ '\n' :: rest) = (cur ++ line) :: splitLines [] rest := by
  induction line with
  | nil => intro cur _; simp [splitLines]
  | cons c cs ih =>
    intro cur h
    have hc : c ≠ '\n' := h c (List.mem_cons_self _ _)
    have hcs : ∀ x ∈ cs, x ≠ '\n' := fun x hx => h x (List.mem_cons_of_mem _ hx)
    simp [splitLines, hc, ih _ hcs]

/-- Every text either has a first `'\n'` or none at all. -/
theorem nl_split (l : List Char) :
    (∃ line rest, l = line ++ '\n' :: rest ∧ ∀ c ∈ line, c ≠ '\n') ∨ (∀ c ∈ l, c ≠ '\n') := by
  induction l with
  | nil => right; simp
  | cons c cs ih =>
    by_cases hc : c = '\n'
    · left; exact ⟨[], cs, by simp [hc], by simp⟩
    · rcases ih with ⟨line, rest, h1, h2⟩ | h
      · left
        refine ⟨c :: line, rest, by simp [h1], ?_⟩
        intro x hx
        rcases List.mem_cons.1 hx with rfl | hx
        · exact hc
        · exact h2 x hx
      · right
        intro x hx
        rcases List.mem_cons.1 hx with rfl | hx
        · exact hc
        · exact h x hx

theorem takeWhile_nl_line (line rest : List Char) (h : ∀ c ∈ line, c ≠ '\n') :
    (line ++ '\n' :: rest).takeWhile (fun x => x != '\n') = line := by
  induction line with
  | nil => simp
  | cons c cs ih =>
    have hc : c ≠ '\n' := h c (List.mem_cons_self _ _)
    have hcs : ∀ x ∈ cs, x ≠ '\n' := fun x hx => h x (List.mem_cons_of_mem _ hx)
    simp [List.takeWhile_cons, hc, ih hcs]

theorem takeWhile_nl_all (l : List Char) (h : ∀ c ∈ l, c ≠ '\n') :
    l.takeWhile (fun x => x != '\n') = l := by
  induction l with
  | nil => simp
  | cons c cs ih =>
    have hc : c ≠ '\n' := h c (List.mem_cons_self _ _)
    have hcs : ∀ x ∈ cs, x ≠ '\n' := fun x hx => h x (List.mem_cons_of_mem _ hx)
    simp [List.takeWhile_cons, hc, ih hcs]

/-- On a good stream whose unread text starts with a terminated line, `getline` returns
that line and leaves the stream good, right after the `'\n'`. -/
theorem getline_good (s : IStream) (c : Char) (cs : List Char)
    (he : s.eofbit = false) (hf : s.failbit = false) (hr : s.remaining = c :: cs) :
    getline s =
      if ((c :: cs).takeWhile (fun x => x != '\n')).length < (c :: cs).length then
        (true, (c :: cs).takeWhile (fun x => x != '\n'),
          { s with pos := s.pos + ((c :: cs).takeWhile (fun x => x != '\n')).length + 1 })
      else
        (true, (c :: cs).takeWhile (fun x => x != '\n'),
          { s with pos := s.pos + ((c :: cs).takeWhile (fun x => x != '\n')).length,
                   eofbit := true }) := by
  unfold getline
  rw [he, hf, hr]
  rfl

/-- On a good stream whose unread text starts with a terminated line, `getline` returns
that line and leaves the stream good, right after the `'\n'`. -/
theorem getline_line (s : IStream) (line rest : List Char)
    (he : s.eofbit = false) (hf : s.failbit = false)
    (hr : s.remaining = line ++ '\n' :: rest) (h : ∀ c ∈ line, c ≠ '\n') :
    getline s = (true, line, { s with pos := s.pos + line.length + 1 }) := by
  cases hl : line ++ '\n' :: rest with
  | nil => simp at hl
  | cons c cs =>
    rw [getline_good s c cs he hf (by rw [hr, hl]), ← hl, takeWhile_nl_line line rest h]
    rw [if_pos (by simp)]

/-- On a good stream whose unread text is a non-empty line without `'\n'`, `getline`
returns it and sets `eofbit`. -/
theorem getline_last (s : IStream) (c : Char) (cs : List Char)
    (he : s.eofbit = false) (hf : s.failbit = false)
    (hr : s.remaining = c :: cs) (h : ∀ x ∈ c :: cs, x ≠ '\n') :
    getline s = (true, c :: cs, { s with pos := s.pos + (c :: cs).length, eofbit := true }) := by
  rw [getline_good s c cs he hf hr, takeWhile_nl_all (c :: cs) h]
  rw [if_neg (by simp)]

theorem getline_stopped (s : IStream) (he : s.eofbit = true) :
    (getline s).1 = false := by
  unfold getline
  simp [he]

theorem remaining_advance (s : IStream) (line rest : List Char)
    (hr : s.remaining = line ++ '\n' :: rest) :
    IStream.remaining { s with pos := s.pos + line.length + 1 } = rest := by
  have : s.text.drop (s.pos + line.length + 1) = (s.text.drop s.pos).drop (line.length + 1) := by
    rw [List.drop_drop]; congr 1
  simp only [IStream.remaining] at hr ⊢
  rw [this, hr]
  simp

/-- The lines `readLinesLoop` returns on a good stream are the lines of the unread
text, once the fuel exceeds its length. -/
theorem readLinesLoop_eq (fuel : Nat) :
    ∀ s : IStream, s.eofbit = false → s.failbit = false → s.remaining.length < fuel →
      (readLinesLoop fuel s).1 = splitLines [] s.remaining := by
  induction fuel with
  | zero => intro s _ _ h; omega
  | succ n ih =>
    intro s he hf hlen
    cases hr : s.remaining with
    | nil =>
      have : getline s = (false, [], { s with eofbit := true, failbit := true }) := by
        unfold getline; rw [he, hf, hr]; simp
      simp [readLinesLoop, this, splitLines]
    | cons c cs =>
      rcases nl_split (c :: cs) with ⟨line, rest, h1, h2⟩ | h
      · have hr2 : s.remaining = line ++ '\n' :: rest := by rw [hr, h1]
        have hg := getline_line s line rest he hf hr2 h2
        have hrem := remaining_advance s line rest hr2
        have hlen2 : (IStream.remaining { s with pos := s.pos + line.length + 1 }).length < n := by
          rw [hrem]; rw [hr2] at hlen; simp at hlen; omega
        have := ih { s with pos := s.pos + line.length + 1 } he hf hlen2
        simp only [readLinesLoop, hg, this, hrem, h1]
        rw [splitLines_line line rest [] h2]
        simp
      · have hg := getline_last s c cs he hf hr h
        simp only [readLinesLoop, hg]
        rw [splitLines_no_nl (c :: cs) [] h]
        cases n with
        | zero => simp [readLinesLoop]
        | succ m =>
          have hs := getline_stopped { s with pos := s.pos + (c :: cs).length, eofbit := true } rfl
          rcases hgl : getline { s with pos := s.pos + (c :: cs).length, eofbit := true }
            with ⟨b, l, s2⟩
          rw [hgl] at hs
          simp at hs
          subst hs
          simp only [List.length_cons] at hgl
          simp [readLinesLoop, hgl]

theorem fileLines_eq (text : List Char) : fileLines text = splitLines [] text := by
  unfold fileLines readLines
  rw [readLinesLoop_eq]
  · simp [IStream.remaining, IStream.seekg0, IStream.clear, IStream.open]
  · simp [IStream.seekg0, IStream.clear, IStream.open]
  · simp [IStream.seekg0, IStream.clear, IStream.open]
  · simp [IStream.remaining, IStream.seekg0, IStream.clear, IStream.open]

/-! ## The sizing methods -/

theorem rewind_eq (s : IStream) : s.clear.seekg0 = IStream.open s.text := by
  simp [IStream.seekg0, IStream.clear, IStream.open]

theorem getline_text (s : IStream) : (getline s).2.2.text = s.text := by
  unfold getline
  split
  · rfl
  · split
    · rfl
    · simp only []
      split <;> rfl

theorem readLinesLoop_text (fuel : Nat) :
    ∀ s : IStream, (readLinesLoop fuel s).2.text = s.text := by
  induction fuel with
  | zero => intro s; rfl
  | succ n ih =>
    intro s
    have ht := getline_text s
    rcases hg : getline s with ⟨b, l, s2⟩
    rw [hg] at ht
    cases b
    · simpa [readLinesLoop, hg] using ht
    · simp only [readLinesLoop, hg]
      rw [ih s2]
      exact ht

theorem rowSizeLoop_eq (fuel : Nat) :
    ∀ (s : IStream) (row : Nat),
      rowSizeLoop fuel s row = (row + (readLinesLoop fuel s).1.length, (readLinesLoop fuel s).2) := by
  induction fuel with
  | zero => intro s row; simp [rowSizeLoop, readLinesLoop]
  | succ n ih =>
    intro s row
    rcases hg : getline s with ⟨b, l, s2⟩
    cases b
    · simp [rowSizeLoop, readLinesLoop, hg]
    · simp only [rowSizeLoop, readLinesLoop, hg, ih s2 (row + 1), List.length_cons]
      congr 1
      omega

/-- The value of `RowSize` is the number of lines the parsers iterate over. -/
theorem RowSize_fst (s : IStream) : (RowSize s).1 = (fileLines s.text).length := by
  unfold RowSize fileLines readLines
  rw [rowSizeLoop_eq, rewind_eq, rewind_eq]
  simp [IStream.open]

theorem RowSize_text (s : IStream) : (RowSize s).2.text = s.text := by
  unfold RowSize
  rw [rowSizeLoop_eq, readLinesLoop_text, rewind_eq]
  rfl

theorem ColSize_text (s : IStream) : (ColSize s).2.text = s.text := by
  unfold ColSize
  simp only [rewind_eq, IStream.open]
  split <;> rfl

theorem ColSize_fst (s : IStream) : (ColSize s).1 = (parseList rawField s.text).attrs.length := by
  unfold ColSize
  simp only [rewind_eq, IStream.open]

theorem splitLines_length (t : List Char) :
    ∀ cur, (splitLines cur t).length =
      t.count '\n' + (if cur ++ t = [] ∨ t.getLast? = some '\n' then 0 else 1) := by
  induction t with
  | nil => intro cur; cases cur <;> simp [splitLines]
  | cons c cs ih =>
    intro cur
    show (if c == '\n' then cur :: splitLines [] cs else splitLines (cur ++ [c]) cs).length = _
    by_cases hcs : cs = []
    · subst hcs
      by_cases hc : c = '\n'
      · subst hc; simp [splitLines]
      · have hc2 : ¬ ('\n' = c) := fun h => hc h.symm
        simp [splitLines, hc, hc2, List.count_cons]
    · have hlast : (c :: cs).getLast? = cs.getLast? := by
        cases cs with
        | nil => exact absurd rfl hcs
        | cons d ds => simp
      rw [hlast]
      by_cases hc : c = '\n'
      · subst hc
        simp only [beq_self_eq_true, if_true, List.length_cons, ih [], List.count_cons_self]
        simp [hcs]
        omega
      · have hc2 : ¬ ('\n' = c) := fun h => hc h.symm
        simp only [beq_iff_eq, hc, if_false, ih (cur ++ [c])]
        rw [List.count_cons]
        simp [hc]

/-- The value of `RowSize` in closed form, whatever the state of the stream. -/
theorem RowSize_count (s : IStream) :
    (RowSize s).1 =
      s.text.count '\n' + (if s.text = [] ∨ s.text.getLast? = some '\n' then 0 else 1) := by
  rw [RowSize_fst, fileLines_eq, splitLines_length]
  simp

/-! ## The fuel of the list operator is enough -/

theorem dropWhile_length_le (p : Char → Bool) (s : List Char) :
    (s.dropWhile p).length ≤ s.length := by
  induction s with
  | nil => simp
  | cons c cs ih =>
    rw [List.dropWhile_cons]
    split
    · simp only [List.length_cons]; omega
    · exact le_refl _

theorem skipSpaces_length_le (s : List Char) : (skipSpaces s).length ≤ s.length :=
  dropWhile_length_le _ s

theorem intParser_shrinks (w : Nat) (s : List Char) (v : Int) (r : List Char)
    (h : intParser w s = some (v, r)) : r.length ≤ s.length := by
  cases s with
  | nil => simp [intParser] at h
  | cons c cs =>
    have hbody : (if (c == '-' || c == '+') = true then cs else c :: cs).length
        ≤ (c :: cs).length := by
      split <;> simp
    generalize hb : (if (c == '-' || c == '+') = true then cs else c :: cs) = body at hbody
    have h2 : intParser w (c :: cs) =
        if (body.takeWhile isDigit).isEmpty then none
        else
          if minT w ≤ (if c == '-' then -(digitsVal (body.takeWhile isDigit) : Int)
                else (digitsVal (body.takeWhile isDigit) : Int)) ∧
              (if c == '-' then -(digitsVal (body.takeWhile isDigit) : Int)
                else (digitsVal (body.takeWhile isDigit) : Int)) ≤ maxT w
          then some ((if c == '-' then -(digitsVal (body.takeWhile isDigit) : Int)
                else (digitsVal (body.takeWhile isDigit) : Int)), body.dropWhile isDigit)
          else none := by
      rw [← hb]
      rfl
    rw [h2] at h
    generalize (if c == '-' then -(digitsVal (body.takeWhile isDigit) : Int)
      else (digitsVal (body.takeWhile isDigit) : Int)) = val at h
    by_cases he : (body.takeWhile isDigit).isEmpty = true
    · rw [if_pos he] at h
      exact absurd h (by simp)
    · rw [if_neg he] at h
      by_cases hr : minT w ≤ val ∧ val ≤ maxT w
      · rw [if_pos hr] at h
        simp only [Option.some.injEq, Prod.mk.injEq] at h
        rw [← h.2]
        exact le_trans (dropWhile_length_le _ _) hbody
      · rw [if_neg hr] at h
        exact absurd h (by simp)

theorem CreateNumRule_shrinks (w : Nat) (s : List Char) (v : Int) (r : List Char)
    (h : CreateNumRule w s = some (v, r)) : r.length ≤ s.length := by
  unfold CreateNumRule at h
  cases hi : intParser w (skipSpaces s) with
  | none => rw [hi] at h; simp at h
  | some x =>
    obtain ⟨v1, r1⟩ := x
    rw [hi] at h
    simp only [Option.some.injEq, Prod.mk.injEq] at h
    rw [← h.2]
    exact le_trans (skipSpaces_length_le _)
      (le_trans (intParser_shrinks w _ v1 r1 hi) (skipSpaces_length_le _))

theorem CreateCharRule_shrinks (s : List Char) (t r : List Char)
    (h : CreateCharRule s = some (t, r)) : r.length ≤ s.length := by
  unfold CreateCharRule at h
  simp only [Option.some.injEq, Prod.mk.injEq] at h
  rw [← h.2]
  exact le_trans (skipSpaces_length_le _)
    (le_trans (dropWhile_length_le _ _) (skipSpaces_length_le _))

theorem rawField_shrinks (s : List Char) (t r : List Char)
    (h : rawField s = some (t, r)) : r.length ≤ s.length := by
  unfold rawField at h
  simp only [Option.some.injEq, Prod.mk.injEq] at h
  rw [← h.2]
  exact dropWhile_length_le _ _

/-- The loop of the list operator does not stop for lack of fuel: for a parser that
never returns more input than it was given, any fuel from the length of the input on
gives the same result. -/
theorem listLoop_fuel {α : Type} (p : List Char → Option (α × List Char))
    (hp : ∀ s a r, p s = some (a, r) → r.length ≤ s.length) (fuel : Nat) :
    ∀ (s : List Char) (extra : Nat), s.length ≤ fuel →
      listLoop p (fuel + extra) s = listLoop p fuel s := by
  induction fuel with
  | zero =>
    intro s extra hs
    have : s = [] := List.length_eq_zero.1 (Nat.le_zero.1 hs)
    subst this
    cases extra <;> simp [listLoop]
  | succ n ih =>
    intro s extra hs
    have hfuel : n + 1 + extra = (n + extra) + 1 := by omega
    rw [hfuel]
    cases s with
    | nil => simp [listLoop]
    | cons c s1 =>
      simp only [listLoop]
      split
      · cases hps : p s1 with
        | none => rfl
        | some x =>
          obtain ⟨a, s2⟩ := x
          have h2 : s2.length ≤ n := by
            have := hp s1 a s2 hps
            simp only [List.length_cons] at hs
            omega
          simp only [ih s2 extra h2]
      · rfl

/-! ## The parse loops in closed form -/

theorem parseList_unmatched {α : Type} (p : List Char → Option (α × List Char)) (s : List Char)
    (h : (parseList p s).matched = false) : (parseList p s).attrs = [] := by
  unfold parseList at h ⊢
  cases hp : p s with
  | none => rfl
  | some x => rw [hp] at h; simp at h

theorem parseList_char_matched (s : List Char) : (parseList CreateCharRule s).matched = true := by
  simp [parseList, CreateCharRule]

theorem foldl_setNum (vals : List Int) :
    ∀ st : ParseState, vals.foldl setNum st =
      { st with inout := { st.inout with writes := st.inout.writes ++ rowWrites st.row st.col vals },
                col := st.col + vals.length } := by
  induction vals with
  | nil => intro st; simp [rowWrites]
  | cons v vs ih =>
    intro st
    simp only [List.foldl_cons, ih, setNum, Mat.assign, rowWrites, List.length_cons,
      List.append_assoc, List.singleton_append]
    congr 1
    omega

theorem foldl_setNumT (vals : List Int) :
    ∀ st : ParseState, vals.foldl setNumT st =
      { st with inout := { st.inout with writes := st.inout.writes ++ colWrites st.row st.col vals },
                row := st.row + vals.length } := by
  induction vals with
  | nil => intro st; simp [colWrites]
  | cons v vs ih =>
    intro st
    simp only [List.foldl_cons, ih, setNumT, Mat.assign, colWrites, List.length_cons,
      List.append_assoc, List.singleton_append]
    congr 1
    omega

theorem foldl_setCharClass (w : Nat) (toks : List (List Char)) :
    ∀ st : ParseState, toks.foldl (setCharClass w) st =
      { st with
        inout := { st.inout with
          writes := st.inout.writes ++ rowWrites st.row st.col (mapTokens w st.infoSet st.row toks).1 },
        infoSet := (mapTokens w st.infoSet st.row toks).2,
        col := st.col + toks.length } := by
  induction toks with
  | nil => intro st; simp [rowWrites, mapTokens]
  | cons t ts ih =>
    intro st
    simp only [List.foldl_cons, ih, setCharClass, Mat.assign, rowWrites, mapTokens,
      List.length_cons, List.append_assoc, List.singleton_append]
    congr 1
    omega

theorem foldl_setCharClassT (w : Nat) (toks : List (List Char)) :
    ∀ st : ParseState, toks.foldl (setCharClassT w) st =
      { st with
        inout := { st.inout with
          writes := st.inout.writes ++ colWrites st.row st.col (mapTokens w st.infoSet st.col toks).1 },
        infoSet := (mapTokens w st.infoSet st.col toks).2,
        row := st.row + toks.length } := by
  induction toks with
  | nil => intro st; simp [colWrites, mapTokens]
  | cons t ts ih =>
    intro st
    simp only [List.foldl_cons, ih, setCharClassT, Mat.assign, colWrites, mapTokens,
      List.length_cons, List.append_assoc, List.singleton_append]
    congr 1
    omega

/-- One round of the loop of `NonTranposeParse`: the line's values go to matrix row
`row`, the round never throws. -/
theorem nonTranposeLine_eq (w : Nat) (m : Mat) (info : DatasetInfo) (row : Nat)
    (line : List Char) :
    nonTranposeLine w ⟨m, info, row, 0⟩ line =
      .ok ⟨{ m with writes := m.writes ++ rowWrites row 0 (lineValues w info row line).1 },
           (lineValues w info row line).2, row + 1, 0⟩ := by
  unfold nonTranposeLine lineValues
  cases hm : (parseList (CreateNumRule w) line).matched with
  | true => simp [foldl_setNum, hm]
  | false =>
    have ha := parseList_unmatched _ _ hm
    simp [ha, hm, foldl_setCharClass, parseList_char_matched]

theorem nonTranposeLoop_eq (w : Nat) (lines : List (List Char)) :
    ∀ (m : Mat) (info : DatasetInfo) (row : Nat),
      nonTranposeLoop w lines ⟨m, info, row, 0⟩ =
        .ok ⟨{ m with writes := m.writes ++ gridWrites row (allValues w row info lines).1 },
             (allValues w row info lines).2, row + lines.length, 0⟩ := by
  induction lines with
  | nil => intro m info row; simp [nonTranposeLoop, gridWrites, allValues]
  | cons line lines ih =>
    intro m info row
    simp only [nonTranposeLoop, nonTranposeLine_eq, ih, gridWrites, allValues,
      List.append_assoc, List.length_cons]
    congr 2
    omega

/-- The loop of `TranposeParseImpl` never takes its `return false` and never throws:
the values of line `col` go down matrix column `col`. -/
theorem tranposeLoop_eq (w : Nat) (lines : List (List Char)) :
    ∀ (m : Mat) (info : DatasetInfo) (col : Nat),
      tranposeLoop w lines ⟨m, info, 0, col⟩ =
        .ok (true,
          ⟨{ m with writes := m.writes ++ gridWritesT col (allValues w col info lines).1 },
           (allValues w col info lines).2, 0, col + lines.length⟩) := by
  induction lines with
  | nil => intro m info col; simp [tranposeLoop, gridWritesT, allValues]
  | cons line lines ih =>
    intro m info col
    unfold tranposeLoop
    cases hm : (parseList (CreateNumRule w) line).matched with
    | true =>
      simp only [foldl_setNumT, if_true, ih, gridWritesT, allValues, lineValues, hm,
        List.append_assoc, List.length_cons]
      congr 3
      omega
    | false =>
      have ha := parseList_unmatched _ _ hm
      have hc : ((info.NumMappings col == 0 && (0 : Nat) == 0) || info.NumMappings col != 0)
          = true := by
        cases h : info.NumMappings col == 0 <;> simp_all
      simp only [ha, List.foldl_nil, hc, foldl_setCharClassT, parseList_char_matched, if_true,
        ih, gridWritesT, allValues, lineValues, hm, List.append_assoc, List.length_cons]
      simp only [Bool.false_eq_true, if_false]
      congr 3
      omega

theorem RowSize_rowCount (s : IStream) : (RowSize s).1 = rowCount s.text := by
  rw [RowSize_fst, rowCount, RowSize_fst]
  rfl

theorem ColSize_colCount (s : IStream) : (ColSize s).1 = colCount s.text := by
  rw [ColSize_fst, colCount, ColSize_fst]
  rfl

theorem rowCount_eq (text : List Char) : rowCount text = (fileLines text).length := by
  rw [rowCount, RowSize_fst]
  rfl

theorem readLines_rewind (s : IStream) :
    readLines s.clear.seekg0 = ((fileLines s.text), fileEnd s.text) := by
  rw [rewind_eq]
  unfold fileLines fileEnd
  rw [rewind_eq]
  rfl

/-- The row-major parser in closed form: it always returns, the matrix is `RowSize()` by
`ColSize()` and the values of line `j` are assigned along matrix row `j`. -/
theorem NonTranposeParse_eq (w : Nat) (s : IStream) :
    NonTranposeParse w s =
      .ok ⟨⟨rowCount s.text, colCount s.text,
            gridWrites 0 (allValues w 0 (DatasetInfo.new (rowCount s.text)) (fileLines s.text)).1⟩,
           (allValues w 0 (DatasetInfo.new (rowCount s.text)) (fileLines s.text)).2,
           fileEnd s.text⟩ := by
  unfold NonTranposeParse
  simp only [readLines_rewind, ColSize_text, RowSize_text, RowSize_rowCount, ColSize_colCount,
    Mat.set_size, DatasetInfo.Dimensionality, DatasetInfo.new, nonTranposeLoop_eq,
    List.nil_append]

/-- The single pass of the column-major parser in closed form. -/
theorem TranposeParseImpl_eq (w : Nat) (m : Mat) (info : DatasetInfo) (s : IStream) :
    TranposeParseImpl w ⟨m, info, s⟩ =
      .ok (true,
        ⟨{ m with writes := m.writes ++ gridWritesT 0 (allValues w 0 info (fileLines s.text)).1 },
         (allValues w 0 info (fileLines s.text)).2, fileEnd s.text⟩) := by
  unfold TranposeParseImpl
  simp only [readLines_rewind, tranposeLoop_eq]

/-- The column-major parser in closed form: with fuel for one pass it returns, the matrix
is `ColSize()` by `RowSize()` and the values of line `j` are assigned down matrix
column `j`. -/
theorem TranposeParse_eq (w fuel : Nat) (s : IStream) :
    TranposeParse w (fuel + 1) s =
      some (.ok ⟨⟨colCount s.text, rowCount s.text,
            gridWritesT 0 (allValues w 0 (DatasetInfo.new (colCount s.text)) (fileLines s.text)).1⟩,
           (allValues w 0 (DatasetInfo.new (colCount s.text)) (fileLines s.text)).2,
           fileEnd s.text⟩) := by
  unfold TranposeParse
  simp only [tranposeRetry, TranposeParseImpl_eq, ColSize_text, RowSize_text, RowSize_rowCount,
    ColSize_colCount, Mat.set_size, DatasetInfo.Dimensionality, DatasetInfo.new, List.nil_append]

/-! ## Where the values land in the matrix -/

theorem mem_rowWrites (x : Write) (r : Nat) (vs : List Int) :
    ∀ c, x ∈ rowWrites r c vs ↔ x.row = r ∧ ∃ i, x.col = c + i ∧ vs[i]? = some x.val := by
  induction vs with
  | nil => intro c; simp [rowWrites]
  | cons v vs ih =>
    intro c
    rw [rowWrites, List.mem_cons, ih]
    constructor
    · rintro (h | ⟨h1, i, h2, h3⟩)
      · subst h
        exact ⟨rfl, 0, rfl, by simp⟩
      · exact ⟨h1, i + 1, by omega, by simpa using h3⟩
    · rintro ⟨h1, i, h2, h3⟩
      cases i with
      | zero =>
        left
        cases x
        simp at h1 h2 h3
        simp [h1, h2, h3]
      | succ k =>
        right
        exact ⟨h1, k, by omega, by simpa using h3⟩

theorem mem_colWrites (x : Write) (c : Nat) (vs : List Int) :
    ∀ r, x ∈ colWrites r c vs ↔ x.col = c ∧ ∃ i, x.row = r + i ∧ vs[i]? = some x.val := by
  induction vs with
  | nil => intro r; simp [colWrites]
  | cons v vs ih =>
    intro r
    rw [colWrites, List.mem_cons, ih]
    constructor
    · rintro (h | ⟨h1, i, h2, h3⟩)
      · subst h
        exact ⟨rfl, 0, rfl, by simp⟩
      · exact ⟨h1, i + 1, by omega, by simpa using h3⟩
    · rintro ⟨h1, i, h2, h3⟩
      cases i with
      | zero =>
        left
        cases x
        simp at h1 h2 h3
        simp [h1, h2, h3]
      | succ k =>
        right
        exact ⟨h1, k, by omega, by simpa using h3⟩

/-- An assignment is made by the row-major parser exactly when its value is the value
number `x.col` of line `x.row`. -/
theorem mem_gridWrites (x : Write) (vss : List (List Int)) :
    ∀ j, x ∈ gridWrites j vss ↔
      ∃ n vs, x.row = j + n ∧ vss[n]? = some vs ∧ vs[x.col]? = some x.val := by
  induction vss with
  | nil => intro j; simp [gridWrites]
  | cons vs vss ih =>
    intro j
    rw [gridWrites, List.mem_append, ih, mem_rowWrites]
    constructor
    · rintro (⟨h1, i, h2, h3⟩ | ⟨n, us, h1, h2, h3⟩)
      · refine ⟨0, vs, h1, by simp, ?_⟩
        have : x.col = i := by omega
        rw [this]; exact h3
      · exact ⟨n + 1, us, by omega, by simpa using h2, h3⟩
    · rintro ⟨n, us, h1, h2, h3⟩
      cases n with
      | zero =>
        left
        simp at h2
        subst h2
        exact ⟨h1, x.col, by omega, h3⟩
      | succ k =>
        right
        exact ⟨k, us, by omega, by simpa using h2, h3⟩

/-- An assignment is made by the column-major parser exactly when its value is the value
number `x.row` of line `x.col`. -/
theorem mem_gridWritesT (x : Write) (vss : List (List Int)) :
    ∀ j, x ∈ gridWritesT j vss ↔
      ∃ n vs, x.col = j + n ∧ vss[n]? = some vs ∧ vs[x.row]? = some x.val := by
  induction vss with
  | nil => intro j; simp [gridWritesT]
  | cons vs vss ih =>
    intro j
    rw [gridWritesT, List.mem_append, ih, mem_colWrites]
    constructor
    · rintro (⟨h1, i, h2, h3⟩ | ⟨n, us, h1, h2, h3⟩)
      · refine ⟨0, vs, h1, by simp, ?_⟩
        have : x.row = i := by omega
        rw [this]; exact h3
      · exact ⟨n + 1, us, by omega, by simpa using h2, h3⟩
    · rintro ⟨n, us, h1, h2, h3⟩
      cases n with
      | zero =>
        left
        simp at h2
        subst h2
        exact ⟨h1, x.row, by omega, h3⟩
      | succ k =>
        right
        exact ⟨k, us, by omega, by simpa using h2, h3⟩

/-- The value of a matrix element when no element is assigned two different values. -/
theorem elem_eq_some (m : Mat) (r c : Nat) (v : Int)
    (huniq : ∀ x ∈ m.writes, ∀ y ∈ m.writes, x.row = y.row → x.col = y.col → x.val = y.val)
    (hmem : (⟨r, c, v⟩ : Write) ∈ m.writes) : m.elem r c = some v := by
  unfold Mat.elem
  cases hf : m.writes.reverse.find? (fun x => x.row == r && x.col == c) with
  | none =>
    rw [List.find?_eq_none] at hf
    have := hf ⟨r, c, v⟩ (List.mem_reverse.2 hmem)
    simp at this
  | some y =>
    have hy := List.find?_some hf
    have hmy := List.mem_reverse.1 (List.mem_of_find?_eq_some hf)
    simp at hy
    have := huniq y hmy ⟨r, c, v⟩ hmem hy.1 hy.2
    simpa using this

theorem elem_eq_none (m : Mat) (r c : Nat)
    (h : ∀ x ∈ m.writes, ¬ (x.row = r ∧ x.col = c)) : m.elem r c = none := by
  unfold Mat.elem
  have : m.writes.reverse.find? (fun x => x.row == r && x.col == c) = none := by
    rw [List.find?_eq_none]
    intro x hx
    have := h x (List.mem_reverse.1 hx)
    simpa using this
  rw [this]
  rfl

/-- The element `(r, c)` of the matrix the row-major parser fills is value `c` of line
`r`, and indeterminate when line `r` has no such value. -/
theorem elem_gridWrites (R C : Nat) (vss : List (List Int)) (r c : Nat) :
    Mat.elem ⟨R, C, gridWrites 0 vss⟩ r c = (vss[r]?).bind (fun vs => vs[c]?) := by
  cases hr : vss[r]? with
  | none =>
    apply elem_eq_none
    rintro x hx ⟨h1, h2⟩
    obtain ⟨n, vs, g1, g2, g3⟩ := (mem_gridWrites x vss 0).1 hx
    have : n = r := by omega
    subst this
    rw [hr] at g2
    exact absurd g2 (by simp)
  | some vs =>
    cases hc : vs[c]? with
    | none =>
      rw [Option.some_bind, hc]
      apply elem_eq_none
      rintro x hx ⟨h1, h2⟩
      obtain ⟨n, us, g1, g2, g3⟩ := (mem_gridWrites x vss 0).1 hx
      have : n = r := by omega
      subst this
      rw [hr] at g2
      simp at g2
      subst g2
      rw [h2, hc] at g3
      exact absurd g3 (by simp)
    | some v =>
      rw [Option.some_bind, hc]
      apply elem_eq_some
      · intro x hx y hy hxy1 hxy2
        obtain ⟨n, us, g1, g2, g3⟩ := (mem_gridWrites x vss 0).1 hx
        obtain ⟨n', us', g1', g2', g3'⟩ := (mem_gridWrites y vss 0).1 hy
        have : n = n' := by omega
        subst this
        rw [g2] at g2'
        simp at g2'
        subst g2'
        rw [hxy2, g3'] at g3
        simpa using g3.symm
      · exact (mem_gridWrites _ vss 0).2 ⟨r, vs, by simp, hr, by simpa using hc⟩

/-- The element `(r, c)` of the matrix the column-major parser fills is value `r` of line
`c`, and indeterminate when line `c` has no such value. -/
theorem elem_gridWritesT (R C : Nat) (vss : List (List Int)) (r c : Nat) :
    Mat.elem ⟨R, C, gridWritesT 0 vss⟩ r c = (vss[c]?).bind (fun vs => vs[r]?) := by
  cases hr : vss[c]? with
  | none =>
    apply elem_eq_none
    rintro x hx ⟨h1, h2⟩
    obtain ⟨n, vs, g1, g2, g3⟩ := (mem_gridWritesT x vss 0).1 hx
    have : n = c := by omega
    subst this
    rw [hr] at g2
    exact absurd g2 (by simp)
  | some vs =>
    cases hc : vs[r]? with
    | none =>
      rw [Option.some_bind, hc]
      apply elem_eq_none
      rintro x hx ⟨h1, h2⟩
      obtain ⟨n, us, g1, g2, g3⟩ := (mem_gridWritesT x vss 0).1 hx
      have : n = c := by omega
      subst this
      rw [hr] at g2
      simp at g2
      subst g2
      rw [h1, hc] at g3
      exact absurd g3 (by simp)
    | some v =>
      rw [Option.some_bind, hc]
      apply elem_eq_some
      · intro x hx y hy hxy1 hxy2
        obtain ⟨n, us, g1, g2, g3⟩ := (mem_gridWritesT x vss 0).1 hx
        obtain ⟨n', us', g1', g2', g3'⟩ := (mem_gridWritesT y vss 0).1 hy
        have : n = n' := by omega
        subst this
        rw [g2] at g2'
        simp at g2'
        subst g2'
        rw [hxy1, g3'] at g3
        simpa using g3.symm
      · exact (mem_gridWritesT _ vss 0).2 ⟨c, vs, by simp, hr, by simpa using hc⟩

theorem countP_rowWrites (r c r0 : Nat) (vs : List Int) :
    ∀ c0, (rowWrites r0 c0 vs).countP (fun x => x.row == r && x.col == c) =
      if r0 = r ∧ c0 ≤ c ∧ c < c0 + vs.length then 1 else 0 := by
  induction vs with
  | nil =>
    intro c0
    rw [if_neg (by simp)]
    rfl
  | cons v vs ih =>
    intro c0
    rw [rowWrites, List.countP_cons, ih]
    simp only [List.length_cons, beq_iff_eq, Bool.and_eq_true]
    split_ifs <;> omega

theorem countP_colWrites (r c c0 : Nat) (vs : List Int) :
    ∀ r0, (colWrites r0 c0 vs).countP (fun x => x.row == r && x.col == c) =
      if c0 = c ∧ r0 ≤ r ∧ r < r0 + vs.length then 1 else 0 := by
  induction vs with
  | nil =>
    intro r0
    rw [if_neg (by simp)]
    rfl
  | cons v vs ih =>
    intro r0
    rw [colWrites, List.countP_cons, ih]
    simp only [List.length_cons, beq_iff_eq, Bool.and_eq_true]
    split_ifs <;> omega

/-- How often the row-major parser assigns the element `(r, c)`: once when line `r` has
a value number `c`, never otherwise. -/
theorem countP_gridWrites (r c : Nat) (vss : List (List Int)) :
    ∀ j, (gridWrites j vss).countP (fun x => x.row == r && x.col == c) =
      if j ≤ r ∧ c < ((vss[r - j]?).getD []).length then 1 else 0 := by
  induction vss with
  | nil => intro j; simp [gridWrites]
  | cons vs vss ih =>
    intro j
    rw [gridWrites, List.countP_append, ih, countP_rowWrites]
    by_cases hj : j = r
    · subst hj
      simp
    · by_cases hlt : j < r
      · have h1 : r - j = (r - (j + 1)) + 1 := by omega
        rw [h1, List.getElem?_cons_succ]
        have h2 : j + 1 ≤ r := hlt
        have h3 : j ≤ r := by omega
        simp [hj, h2, h3]
      · have h2 : ¬ (j + 1 ≤ r) := by omega
        have h3 : ¬ (j ≤ r) := by omega
        simp [hj, h2, h3]

/-- How often the column-major parser assigns the element `(r, c)`: once when line `c`
has a value number `r`, never otherwise. -/
theorem countP_gridWritesT (r c : Nat) (vss : List (List Int)) :
    ∀ j, (gridWritesT j vss).countP (fun x => x.row == r && x.col == c) =
      if j ≤ c ∧ r < ((vss[c - j]?).getD []).length then 1 else 0 := by
  induction vss with
  | nil => intro j; simp [gridWritesT]
  | cons vs vss ih =>
    intro j
    rw [gridWritesT, List.countP_append, ih, countP_colWrites]
    by_cases hj : j = c
    · subst hj
      simp
    · by_cases hlt : j < c
      · have h1 : c - j = (c - (j + 1)) + 1 := by omega
        rw [h1, List.getElem?_cons_succ]
        have h2 : j + 1 ≤ c := hlt
        have h3 : j ≤ c := by omega
        simp [hj, h2, h3]
      · have h2 : ¬ (j + 1 ≤ c) := by omega
        have h3 : ¬ (j ≤ c) := by omega
        simp [hj, h2, h3]

/-! ## Purely numeric files -/

theorem takeWhile_append_stop (p : Char → Bool) (l tail : List Char)
    (hl : ∀ c ∈ l, p c = true) (ht : ∀ c ∈ tail.head?, p c = false) :
    (l ++ tail).takeWhile p = l := by
  induction l with
  | nil =>
    cases tail with
    | nil => rfl
    | cons c cs => simp [List.takeWhile_cons, ht c (by simp)]
  | cons c cs ih =>
    have hc := hl c (List.mem_cons_self _ _)
    have hcs : ∀ x ∈ cs, p x = true := fun x hx => hl x (List.mem_cons_of_mem _ hx)
    simp [List.takeWhile_cons, hc, ih hcs]

theorem dropWhile_append_stop (p : Char → Bool) (l tail : List Char)
    (hl : ∀ c ∈ l, p c = true) (ht : ∀ c ∈ tail.head?, p c = false) :
    (l ++ tail).dropWhile p = tail := by
  induction l with
  | nil =>
    cases tail with
    | nil => rfl
    | cons c cs => simp [List.dropWhile_cons, ht c (by simp)]
  | cons c cs ih =>
    have hc := hl c (List.mem_cons_self _ _)
    have hcs : ∀ x ∈ cs, p x = true := fun x hx => hl x (List.mem_cons_of_mem _ hx)
    simp [List.dropWhile_cons, hc, ih hcs]

theorem skipSpaces_replicate (n : Nat) (rest : List Char) (h : ∀ c ∈ rest.head?, c ≠ ' ') :
    skipSpaces (List.replicate n ' ' ++ rest) = rest := by
  unfold skipSpaces
  apply dropWhile_append_stop
  · intro c hc
    simp [(List.mem_replicate.1 hc).2]
  · intro c hc
    simpa using h c hc

theorem isDigit_ne (c : Char) (h : isDigit c = true) :
    c ≠ ' ' ∧ c ≠ '-' ∧ c ≠ '+' ∧ c ≠ ',' ∧ c ≠ '\n' ∧ c ≠ '\r' := by
  refine ⟨?_, ?_, ?_, ?_, ?_, ?_⟩ <;>
  · rintro rfl
    exact absurd h (by decide)

theorem valid_iff (w : Nat) (f : NumField) :
    f.valid w = true ↔
      f.digits ≠ [] ∧ (∀ c ∈ f.digits, isDigit c = true) ∧ minT w ≤ f.value ∧ f.value ≤ maxT w := by
  unfold NumField.valid
  simp only [Bool.and_eq_true, Bool.not_eq_true', List.isEmpty_eq_false, List.all_eq_true,
    decide_eq_true_eq, and_assoc]

/-- The accumulation of `qi::int_parser` computes the number the digits denote. -/
theorem digitsVal_eq (ds : List Char) : digitsVal ds = literalValue ds := by
  induction ds using List.reverseRecOn with
  | nil => simp [digitsVal, literalValue]
  | append_singleton ds d ih =>
    unfold digitsVal literalValue at *
    simp [List.foldl_append, ih, Nat.ofDigits_cons]
    omega

theorem intParser_field (w : Nat) (f : NumField) (tail : List Char)
    (hv : f.valid w = true) (ht : ∀ c ∈ tail.head?, isDigit c = false) :
    intParser w (signText f.sign ++ (f.digits ++ tail)) = some (f.value, tail) := by
  obtain ⟨hne, hdig, hmin, hmax⟩ := (valid_iff w f).1 hv
  have htw := takeWhile_append_stop isDigit f.digits tail hdig ht
  have hdw := dropWhile_append_stop isDigit f.digits tail hdig ht
  have hemp : f.digits.isEmpty = false := by simpa using hne
  rcases f with ⟨lead, sign, digits, trail⟩
  simp only at hne hdig hmin hmax htw hdw hemp
  cases sign with
  | none =>
    cases digits with
    | nil => exact absurd rfl hne
    | cons d ds =>
      have hd := isDigit_ne d (hdig d (List.mem_cons_self _ _))
      have h1 : (d == '-') = false := by simpa using hd.2.1
      have h2 : (d == '+') = false := by simpa using hd.2.2.1
      simp only [NumField.value, ← digitsVal_eq] at hmin hmax ⊢
      simp only [signText, List.nil_append, List.cons_append, intParser, h1, h2, Bool.or_self,
        Bool.false_eq_true, if_false]
      rw [← List.cons_append, htw, hdw, hemp]
      simp only [Bool.false_eq_true, if_false]
      rw [if_pos ⟨hmin, hmax⟩]
      simp
  | some b =>
    cases b with
    | true =>
      simp only [NumField.value, ← digitsVal_eq] at hmin hmax ⊢
      simp only [signText, List.cons_append, List.nil_append, intParser, beq_self_eq_true,
        Bool.true_or, if_true, htw, hdw, hemp, Bool.false_eq_true, if_false]
      rw [if_pos ⟨hmin, hmax⟩]
    | false =>
      have h1 : ('+' == '-') = false := by decide
      simp only [NumField.value, ← digitsVal_eq] at hmin hmax ⊢
      simp only [signText, List.cons_append, List.nil_append, intParser, h1, beq_self_eq_true,
        Bool.or_true, if_true, htw, hdw, hemp, Bool.false_eq_true, if_false]
      rw [if_pos ⟨hmin, hmax⟩]
      simp

/-- The numeric rule reads a valid numeric field in front of a `','`, a line terminator
or the end of the line, and yields its value. -/
theorem CreateNumRule_field (w : Nat) (f : NumField) (rest : List Char)
    (hv : f.valid w = true) (hrest : ∀ c ∈ rest.head?, c ≠ ' ' ∧ isDigit c = false) :
    CreateNumRule w (f.text ++ rest) = some (f.value, rest) := by
  obtain ⟨hne, hdig, -, -⟩ := (valid_iff w f).1 hv
  have hbody : ∀ c ∈ (signText f.sign ++ (f.digits ++ (List.replicate f.trail ' ' ++ rest))).head?,
      c ≠ ' ' := by
    intro c hc
    cases hs : f.sign with
    | none =>
      rw [hs] at hc
      cases hd : f.digits with
      | nil => exact absurd hd hne
      | cons d ds =>
        rw [hd] at hc
        simp [signText] at hc
        subst hc
        exact (isDigit_ne d (hdig d (by rw [hd]; exact List.mem_cons_self _ _))).1
    | some b =>
      rw [hs] at hc
      cases b <;> simp [signText] at hc <;> subst hc <;> decide
  have htail : ∀ c ∈ (List.replicate f.trail ' ' ++ rest).head?, isDigit c = false := by
    intro c hc
    cases ht : f.trail with
    | zero =>
      rw [ht] at hc
      exact (hrest c (by simpa using hc)).2
    | succ n =>
      rw [ht] at hc
      simp [List.replicate_succ] at hc
      subst hc
      decide
  unfold CreateNumRule NumField.text
  simp only [List.append_assoc]
  rw [skipSpaces_replicate _ _ hbody, intParser_field w f _ hv htail]
  simp only
  rw [skipSpaces_replicate _ _ (fun c hc => (hrest c hc).1)]

theorem tailText_head (fs : List NumField) :
    ∀ c ∈ (tailText fs).head?, c ≠ ' ' ∧ isDigit c = false := by
  intro c hc
  cases fs with
  | nil => simp [tailText] at hc
  | cons f fs =>
    simp [tailText] at hc
    subst hc
    exact ⟨by decide, by decide⟩

/-- The loop of the numeric list parse reads all remaining fields of a valid record. -/
theorem listLoop_tailText (w : Nat) (fs : List NumField) :
    ∀ fuel, (∀ f ∈ fs, f.valid w = true) → (tailText fs).length ≤ fuel →
      listLoop (CreateNumRule w) fuel (tailText fs) = (fs.map NumField.value, []) := by
  induction fs with
  | nil =>
    intro fuel _ _
    cases fuel <;> simp [tailText, listLoop]
  | cons f fs ih =>
    intro fuel hv hlen
    have hf := hv f (List.mem_cons_self _ _)
    have hfs : ∀ g ∈ fs, g.valid w = true := fun g hg => hv g (List.mem_cons_of_mem _ hg)
    cases fuel with
    | zero => simp [tailText] at hlen
    | succ n =>
      have hlen2 : (tailText fs).length ≤ n := by
        simp [tailText] at hlen
        omega
      simp only [tailText, listLoop, beq_self_eq_true, if_true,
        CreateNumRule_field w f _ hf (tailText_head fs), ih n hfs hlen2, List.map_cons]

/-- The numeric list parse of a valid record matches, consumes the whole record and
yields the values of its fields. -/
theorem parseList_record (w : Nat) (f : NumField) (fs : List NumField)
    (hv : ∀ g ∈ f :: fs, g.valid w = true) :
    parseList (CreateNumRule w) (recordText (f :: fs)) =
      ⟨true, (f :: fs).map NumField.value, []⟩ := by
  have hf := hv f (List.mem_cons_self _ _)
  have hfs : ∀ g ∈ fs, g.valid w = true := fun g hg => hv g (List.mem_cons_of_mem _ hg)
  simp only [parseList, recordText, CreateNumRule_field w f _ hf (tailText_head fs),
    listLoop_tailText w fs _ hfs (le_refl _), List.map_cons]

theorem text_fieldChar (w : Nat) (f : NumField) (hv : f.valid w = true) :
    ∀ c ∈ f.text, isFieldChar c = true ∧ c ≠ '\n' := by
  obtain ⟨-, hdig, -, -⟩ := (valid_iff w f).1 hv
  intro c hc
  simp only [NumField.text, List.mem_append] at hc
  rcases hc with hc | hc | hc | hc
  · rw [(List.mem_replicate.1 hc).2]; exact ⟨by decide, by decide⟩
  · cases hs : f.sign with
    | none => rw [hs] at hc; simp [signText] at hc
    | some b =>
      rw [hs] at hc
      cases b <;> simp [signText] at hc <;> subst hc <;> exact ⟨by decide, by decide⟩
  · have := isDigit_ne c (hdig c hc)
    refine ⟨?_, this.2.2.2.2.1⟩
    simp [isFieldChar, this.2.2.2.1, this.2.2.2.2.1, this.2.2.2.2.2]
  · rw [(List.mem_replicate.1 hc).2]; exact ⟨by decide, by decide⟩

theorem tailText_no_nl (w : Nat) (fs : List NumField) (hv : ∀ f ∈ fs, f.valid w = true) :
    ∀ c ∈ tailText fs, c ≠ '\n' := by
  induction fs with
  | nil => intro c hc; simp [tailText] at hc
  | cons f fs ih =>
    intro c hc
    have hf := hv f (List.mem_cons_self _ _)
    have hfs : ∀ g ∈ fs, g.valid w = true := fun g hg => hv g (List.mem_cons_of_mem _ hg)
    simp only [tailText, List.mem_cons, List.mem_append] at hc
    rcases hc with hc | hc | hc
    · subst hc; decide
    · exact (text_fieldChar w f hf c hc).2
    · exact ih hfs c hc

theorem recordText_no_nl (w : Nat) (fs : List NumField) (hv : ∀ f ∈ fs, f.valid w = true) :
    ∀ c ∈ recordText fs, c ≠ '\n' := by
  cases fs with
  | nil => intro c hc; simp [recordText] at hc
  | cons f fs =>
    intro c hc
    have hf := hv f (List.mem_cons_self _ _)
    have hfs : ∀ g ∈ fs, g.valid w = true := fun g hg => hv g (List.mem_cons_of_mem _ hg)
    simp only [recordText, List.mem_append] at hc
    rcases hc with hc | hc
    · exact (text_fieldChar w f hf c hc).2
    · exact tailText_no_nl w fs hfs c hc

/-- The lines of a numeric file are its records. -/
theorem fileLines_numericText (w : Nat) (recs : List (List NumField))
    (hv : ∀ fs ∈ recs, ∀ f ∈ fs, f.valid w = true) :
    fileLines (numericText recs) = recs.map recordText := by
  rw [fileLines_eq]
  induction recs with
  | nil => simp [numericText, splitLines]
  | cons fs recs ih =>
    have h1 := hv fs (List.mem_cons_self _ _)
    have h2 : ∀ gs ∈ recs, ∀ f ∈ gs, f.valid w = true :=
      fun gs hg => hv gs (List.mem_cons_of_mem _ hg)
    rw [numericText, splitLines_line _ _ [] (recordText_no_nl w fs h1), ih h2]
    simp

theorem rawField_field (w : Nat) (f : NumField) (rest : List Char) (hv : f.valid w = true)
    (hrest : ∀ c ∈ rest.head?, isFieldChar c = false) :
    rawField (f.text ++ rest) = some (f.text, rest) := by
  unfold rawField
  rw [takeWhile_append_stop isFieldChar _ _ (fun c hc => (text_fieldChar w f hv c hc).1) hrest,
    dropWhile_append_stop isFieldChar _ _ (fun c hc => (text_fieldChar w f hv c hc).1) hrest]

theorem tailText_nl_head (fs : List NumField) (more : List Char) :
    ∀ c ∈ (tailText fs ++ '\n' :: more).head?, isFieldChar c = false := by
  intro c hc
  cases fs with
  | nil =>
    simp [tailText] at hc
    subst hc
    decide
  | cons f fs =>
    simp [tailText] at hc
    subst hc
    decide

theorem listLoop_rawField (w : Nat) (more : List Char) (fs : List NumField) :
    ∀ fuel, (∀ f ∈ fs, f.valid w = true) → (tailText fs).length ≤ fuel →
      (listLoop rawField fuel (tailText fs ++ '\n' :: more)).1.length = fs.length := by
  induction fs with
  | nil =>
    intro fuel _ _
    have h : ('\n' == ',') = false := by decide
    cases fuel <;> simp [tailText, listLoop, h]
  | cons f fs ih =>
    intro fuel hv hlen
    have hf := hv f (List.mem_cons_self _ _)
    have hfs : ∀ g ∈ fs, g.valid w = true := fun g hg => hv g (List.mem_cons_of_mem _ hg)
    cases fuel with
    | zero => simp [tailText] at hlen
    | succ n =>
      have hlen2 : (tailText fs).length ≤ n := by
        simp [tailText] at hlen
        omega
      simp only [tailText, List.cons_append, List.append_assoc, listLoop, beq_self_eq_true,
        if_true, rawField_field w f _ hf (tailText_nl_head fs more), List.length_cons,
        ih n hfs hlen2]

/-- On a numeric file `ColSize()` is the number of fields of the first record. -/
theorem colCount_numericText (w : Nat) (f : NumField) (fs : List NumField)
    (recs : List (List NumField)) (hv : ∀ g ∈ f :: fs, g.valid w = true) :
    colCount (numericText ((f :: fs) :: recs)) = (f :: fs).length := by
  have hf := hv f (List.mem_cons_self _ _)
  have hfs : ∀ g ∈ fs, g.valid w = true := fun g hg => hv g (List.mem_cons_of_mem _ hg)
  rw [colCount, ColSize_fst]
  simp only [IStream.open, numericText, recordText, List.append_assoc, parseList,
    rawField_field w f _ hf (tailText_nl_head fs _), List.length_cons]
  rw [listLoop_rawField w _ fs _ hfs (by simp)]

/-- Every line of a numeric file is stored as the values of its fields, and the table is
left alone. -/
theorem allValues_numeric (w : Nat) (recs : List (List NumField)) :
    ∀ (j : Nat) (info : DatasetInfo),
      (∀ fs ∈ recs, fs ≠ [] ∧ ∀ f ∈ fs, f.valid w = true) →
      allValues w j info (recs.map recordText) =
        (recs.map (fun fs => fs.map NumField.value), info) := by
  induction recs with
  | nil => intro j info _; simp [allValues]
  | cons fs recs ih =>
    intro j info hv
    obtain ⟨hne, hfs⟩ := hv fs (List.mem_cons_self _ _)
    have hrest : ∀ gs ∈ recs, gs ≠ [] ∧ ∀ f ∈ gs, f.valid w = true :=
      fun gs hg => hv gs (List.mem_cons_of_mem _ hg)
    cases fs with
    | nil => exact absurd rfl hne
    | cons f fs =>
      simp only [List.map_cons, allValues, lineValues, parseList_record w f fs hfs, if_true,
        ih (j + 1) info hrest]

theorem rowCount_numericText (w : Nat) (recs : List (List NumField))
    (hv : ∀ fs ∈ recs, ∀ f ∈ fs, f.valid w = true) :
    rowCount (numericText recs) = recs.length := by
  rw [rowCount_eq, fileLines_numericText w recs hv, List.length_map]

theorem getElem?_values (recs : List (List NumField)) (r c : Nat) :
    ((recs.map (fun fs => fs.map NumField.value))[r]?).bind (fun vs => vs[c]?) =
      ((recs[r]?).bind (fun fs => fs[c]?)).map NumField.value := by
  rw [List.getElem?_map]
  cases recs[r]? with
  | none => rfl
  | some fs => simp [List.getElem?_map]

/-! ## How many values a line yields -/

theorem mapTokens_length (w : Nat) (dim : Nat) (toks : List (List Char)) :
    ∀ info : DatasetInfo, (mapTokens w info dim toks).1.length = toks.length := by
  induction toks with
  | nil => intro info; rfl
  | cons t ts ih => intro info; simp [mapTokens, ih]

theorem lineValues_length (w : Nat) (info : DatasetInfo) (j : Nat) (line : List Char) :
    (lineValues w info j line).1.length = fieldsStored w line := by
  unfold lineValues fieldsStored
  cases hm : (parseList (CreateNumRule w) line).matched with
  | true => simp [hm]
  | false => simp [hm, mapTokens_length]

theorem allValues_lengths (w : Nat) (lines : List (List Char)) :
    ∀ (j : Nat) (info : DatasetInfo),
      (allValues w j info lines).1.map List.length = lines.map (fieldsStored w) := by
  induction lines with
  | nil => intro j info; rfl
  | cons line lines ih =>
    intro j info
    simp [allValues, lineValues_length, ih]

theorem allValues_getD_length (w : Nat) (lines : List (List Char)) (j : Nat)
    (info : DatasetInfo) (n : Nat) :
    (((allValues w j info lines).1[n]?).getD []).length =
      ((lines[n]?).map (fieldsStored w)).getD 0 := by
  have h := congrArg (fun l => l[n]?) (allValues_lengths w lines j info)
  simp only [List.getElem?_map] at h
  cases h1 : (allValues w j info lines).1[n]? with
  | none =>
    rw [h1] at h
    cases h2 : lines[n]? with
    | none => rfl
    | some l => rw [h2] at h; simp at h
  | some vs =>
    rw [h1] at h
    cases h2 : lines[n]? with
    | none => rw [h2] at h; simp at h
    | some l =>
      rw [h2] at h
      simpa using h

/-- When no line of the file yields more than `n` values, every stored value has its line
index below the number of lines and its value index below `n`. -/
theorem allValues_stored_bound (w : Nat) (lines : List (List Char)) (info : DatasetInfo)
    (n : Nat) (h : ∀ line ∈ lines, fieldsStored w line ≤ n) (j i : Nat) (vs : List Int)
    (v : Int) (h1 : (allValues w 0 info lines).1[j]? = some vs) (h2 : vs[i]? = some v) :
    j < lines.length ∧ i < n := by
  have hlen0 : (allValues w 0 info lines).1.length = lines.length := by
    have := congrArg List.length (allValues_lengths w lines 0 info)
    simpa using this
  have hj : j < (allValues w 0 info lines).1.length := by
    rcases Nat.lt_or_ge j (allValues w 0 info lines).1.length with h | h
    · exact h
    · rw [List.getElem?_eq_none h] at h1
      exact absurd h1 (by simp)
  rw [hlen0] at hj
  refine ⟨hj, ?_⟩
  have hlen := allValues_getD_length w lines 0 info j
  rw [h1, List.getElem?_eq_getElem hj] at hlen
  simp only [Option.getD_some, Option.map_some'] at hlen
  have hi : i < vs.length := by
    rcases Nat.lt_or_ge i vs.length with h | h
    · exact h
    · rw [List.getElem?_eq_none h] at h2
      exact absurd h2 (by simp)
  have := h _ (List.getElem_mem hj)
  omega

/-- The values stored for line `j` are as many as the line yields. -/
theorem allValues_row_length (w : Nat) (lines : List (List Char)) (info : DatasetInfo)
    (j : Nat) (line : List Char) (hline : lines[j]? = some line) :
    ∃ vs, (allValues w 0 info lines).1[j]? = some vs ∧ vs.length = fieldsStored w line := by
  have hlen := allValues_getD_length w lines 0 info j
  rw [hline] at hlen
  simp only [Option.map_some', Option.getD_some] at hlen
  have hlen0 : (allValues w 0 info lines).1.length = lines.length := by
    have := congrArg List.length (allValues_lengths w lines 0 info)
    simpa using this
  have hj : j < lines.length := by
    rcases Nat.lt_or_ge j lines.length with h | h
    · exact h
    · rw [List.getElem?_eq_none h] at hline
      exact absurd hline (by simp)
  have hj2 : j < (allValues w 0 info lines).1.length := by rw [hlen0]; exact hj
  refine ⟨(allValues w 0 info lines).1[j], List.getElem?_eq_getElem hj2, ?_⟩
  rw [List.getElem?_eq_getElem hj2] at hlen
  simpa using hlen

/-! ## The examples of the specification -/

/-- Example 1: the row-major load of `"1,2,3\n4,5,6\n"` is `[[1,2,3],[4,5,6]]`, with an
empty mapping table. -/
theorem example1_row_major :
    (loadedMat (Load 32 1 (IStream.open "1,2,3\n4,5,6\n".toList) false)).map
        (fun m => (m.n_rows, m.n_cols, m.rowElems 0 3, m.rowElems 1 3)) =
      some (2, 3, [some 1, some 2, some 3], [some 4, some 5, some 6]) ∧
    (loadedInfo (Load 32 1 (IStream.open "1,2,3\n4,5,6\n".toList) false)).map
        (fun info => info.tables 2) = some [[], []] := by
  decide

/-- Example 2: the column-major load of `"1,2,3\n4,5,6\n"` is `[[1,4],[2,5],[3,6]]`, with
an empty mapping table. -/
theorem example2_column_major :
    (loadedMat (Load 32 1 (IStream.open "1,2,3\n4,5,6\n".toList) true)).map
        (fun m => (m.n_rows, m.n_cols, [m.rowElems 0 2, m.rowElems 1 2, m.rowElems 2 2])) =
      some (3, 2, [[some 1, some 4], [some 2, some 5], [some 3, some 6]]) ∧
    (loadedInfo (Load 32 1 (IStream.open "1,2,3\n4,5,6\n".toList) true)).map
        (fun info => info.tables 3) = some [[], [], []] := by
  decide

/-! ## The claims -/

/-- C1: row-major load of a purely numeric rectangular file.  For every text made of
`R ≥ 1` records terminated by `'\n'`, each with exactly `C ≥ 1` comma separated fields
that are in-range optionally signed integer literals optionally surrounded by spaces,
`Load(transpose = false)` returns an `R x C` matrix whose element `(r, c)` is the value
of field `c` of record `r`, and no dimension of the mapping table has a mapping. -/
theorem C1_row_major_numeric (w fuel : Nat) (inFile : IStream) (recs : List (List NumField))
    (C : Nat) (htext : inFile.text = numericText recs) (hR : recs ≠ []) (hC : 0 < C)
    (hrect : ∀ fs ∈ recs, fs.length = C)
    (hvalid : ∀ fs ∈ recs, ∀ f ∈ fs, f.valid w = true) :
    ∃ res, Load w fuel inFile false = some (.ok res) ∧
      res.inout.n_rows = recs.length ∧ res.inout.n_cols = C ∧
      (∀ r c fs f, recs[r]? = some fs → fs[c]? = some f →
        res.inout.elem r c = some f.value) ∧
      ∀ d, res.infoSet.NumMappings d = 0 := by
  have hne : ∀ fs ∈ recs, fs ≠ [] ∧ ∀ f ∈ fs, f.valid w = true := by
    intro fs hfs
    refine ⟨?_, hvalid fs hfs⟩
    intro h
    have := hrect fs hfs
    rw [h] at this
    simp at this
    omega
  have hcols : colCount (numericText recs) = C := by
    cases recs with
    | nil => exact absurd rfl hR
    | cons fs recs =>
      have h1 := hrect fs (List.mem_cons_self _ _)
      cases fs with
      | nil => simp at h1; omega
      | cons f fs =>
        rw [colCount_numericText w f fs recs (hvalid _ (List.mem_cons_self _ _)), h1]
  refine ⟨_, by simp only [Load, Bool.false_eq_true, if_false]; rw [NonTranposeParse_eq],
    ?_, ?_, ?_, ?_⟩
  · simp only [htext]
    exact rowCount_numericText w recs hvalid
  · simp only [htext]
    exact hcols
  · intro r c fs f h1 h2
    simp only [htext, fileLines_numericText w recs hvalid, allValues_numeric w recs _ _ hne]
    rw [elem_gridWrites, getElem?_values, h1]
    simp [h2]
  · intro d
    simp only [htext, fileLines_numericText w recs hvalid, allValues_numeric w recs _ _ hne]
    rfl

/-- C1, witness: the file `"1,2,3\n4,5,6\n"` loads row-major as `[[1,2,3],[4,5,6]]`
with an empty mapping table. -/
theorem C1_row_major_numeric_witness :
    numericText records123456 = "1,2,3\n4,5,6\n".toList ∧
    ∃ res, Load 32 0 (IStream.open (numericText records123456)) false = some (.ok res) ∧
      res.inout.n_rows = records123456.length ∧ res.inout.n_cols = 3 ∧
      (∀ r c fs f, records123456[r]? = some fs → fs[c]? = some f →
        res.inout.elem r c = some f.value) ∧
      ∀ d, res.infoSet.NumMappings d = 0 :=
  ⟨by decide, C1_row_major_numeric 32 0 (IStream.open (numericText records123456))
    records123456 3 rfl (by decide) (by decide) (by decide) (by decide)⟩

/-- C3, the code at the example of the claim: the column-major load of
`"red,1\nblue,2\nred,3\n"` keys the mapping table by the line, not by the column:
matrix row 0 is `[0,0,0]`, matrix row 1 is `[1,1,1]`, and the dimensions 0, 1, 2 hold
the tokens of the lines 0, 1, 2. -/
theorem C3_column_major_keys_by_line :
    (loadedMat (Load 32 1 (IStream.open "red,1\nblue,2\nred,3\n".toList) true)).map
        (fun m => (m.n_rows, m.n_cols, m.rowElems 0 3, m.rowElems 1 3)) =
      some (2, 3, [some 0, some 0, some 0], [some 1, some 1, some 1]) ∧
    (loadedInfo (Load 32 1 (IStream.open "red,1\nblue,2\nred,3\n".toList) true)).map
        (fun info => info.tables 3) =
      some [["red", "1"], ["blue", "2"], ["red", "3"]] := by
  decide

/-- C4, the code at the example of the claim: the column-major load of `"1\n2\ncat\n"`
makes one pass and keeps the numbers 1 and 2: the matrix row is `[1,2,0]`, and the only
mapping is `cat ↦ 0`, in dimension 2. -/
theorem C4_no_rescan :
    (loadedMat (Load 32 1 (IStream.open "1\n2\ncat\n".toList) true)).map
        (fun m => (m.n_rows, m.n_cols, m.rowElems 0 3)) =
      some (1, 3, [some 1, some 2, some 0]) ∧
    (loadedInfo (Load 32 1 (IStream.open "1\n2\ncat\n".toList) true)).map
        (fun info => info.tables 3) =
      some [[], [], ["cat"]] := by
  decide

/-- C5, the code at a failing input: for the record `"1,cat"` the numeric list parse
matches (on the prefix `"1"`), so the row-major load stores the raw number 1 in
element `(0, 0)`, never assigns element `(0, 1)` and maps no token. -/
theorem C5_numeric_prefix_accepted :
    parseList (CreateNumRule 32) "1,cat".toList = ⟨true, [1], ",cat".toList⟩ ∧
    (loadedMat (Load 32 1 (IStream.open "1,cat\n".toList) false)).map
        (fun m => (m.n_rows, m.n_cols, m.rowElems 0 2)) =
      some (1, 2, [some 1, none]) ∧
    (loadedInfo (Load 32 1 (IStream.open "1,cat\n".toList) false)).map
        (fun info => info.tables 1) =
      some [[]] := by
  decide

/-- C6, the code at a failing input: the record `"a b"` is consumed by neither list
parse (the numeric one does not match, the generic one stops in front of `"b"`), and
both loads return all the same, with the token `a` stored and the tail ignored. -/
theorem C6_tail_ignored :
    (parseList (CreateNumRule 32) "a b".toList).matched = false ∧
    parseList CreateCharRule "a b".toList = ⟨true, ["a".toList], "b".toList⟩ ∧
    (loadedMat (Load 32 1 (IStream.open "a b\n".toList) false)).map
        (fun m => (m.n_rows, m.n_cols, m.rowElems 0 1)) = some (1, 1, [some 0]) ∧
    (loadedMat (Load 32 1 (IStream.open "a b\n".toList) true)).map
        (fun m => (m.n_rows, m.n_cols, m.rowElems 0 1)) = some (1, 1, [some 0]) := by
  decide

/-- C7, counterexample: the column-major load of the ragged file `"1,2\n3\n"` (two
columns expected) does not fail: it returns a `2 x 2` matrix whose element `(1, 1)` was
never assigned. -/
theorem C7_ragged_accepted :
    colCount "1,2\n3\n".toList = 2 ∧
    loadFailed (Load 32 1 (IStream.open "1,2\n3\n".toList) true) = false ∧
    (loadedMat (Load 32 1 (IStream.open "1,2\n3\n".toList) true)).map
        (fun m => (m.n_rows, m.n_cols, m.rowElems 0 2, m.rowElems 1 2)) =
      some (2, 2, [some 1, some 3], [some 2, none]) := by
  decide

/-- C7, amended: the column-major load checks no field count against narrower records.
On every input in which no line yields more than `ColSize()` values, it returns (given
fuel for one pass) a `ColSize() x RowSize()` matrix, every store is inside the matrix,
and the element `(i, j)` was assigned once when line `j` yielded more than `i` values
and never otherwise: a record narrower than the first is accepted and leaves elements
unassigned. -/
theorem C7_column_major_no_width_check (w fuel : Nat) (inFile : IStream)
    (hwide : ∀ line ∈ fileLines inFile.text, fieldsStored w line ≤ colCount inFile.text) :
    ∃ res, Load w (fuel + 1) inFile true = some (.ok res) ∧
      res.inout.n_rows = colCount inFile.text ∧ res.inout.n_cols = rowCount inFile.text ∧
      (∀ x ∈ res.inout.writes, x.row < res.inout.n_rows ∧ x.col < res.inout.n_cols) ∧
      ∀ i j line, (fileLines inFile.text)[j]? = some line →
        res.inout.writeCount i j = if i < fieldsStored w line then 1 else 0 := by
  refine ⟨_, by simp only [Load, if_true]; rw [TranposeParse_eq], rfl, rfl, ?_, ?_⟩
  · intro x hx
    obtain ⟨n, vs, g1, g2, g3⟩ := (mem_gridWritesT x _ 0).1 hx
    have hb := allValues_stored_bound w _ _ _ hwide n x.row vs x.val g2 g3
    rw [← rowCount_eq] at hb
    have : x.col = n := by omega
    rw [this]
    exact ⟨hb.2, hb.1⟩
  · intro i j line hline
    simp only [Mat.writeCount]
    rw [countP_gridWritesT, Nat.sub_zero, allValues_getD_length, hline]
    simp

/-- C7, witness: in `"1,2\n3\n"` no line yields more than the two values `ColSize()`
counts; the column-major load returns a `2 x 2` matrix with every store inside it. -/
theorem C7_column_major_no_width_check_witness :
    (∀ line ∈ fileLines "1,2\n3\n".toList,
      fieldsStored 32 line ≤ colCount "1,2\n3\n".toList) ∧
    ∃ res, Load 32 (0 + 1) (IStream.open "1,2\n3\n".toList) true = some (.ok res) ∧
      res.inout.n_rows = 2 ∧ res.inout.n_cols = 2 ∧
      (∀ x ∈ res.inout.writes, x.row < res.inout.n_rows ∧ x.col < res.inout.n_cols) := by
  have h : ∀ line ∈ fileLines "1,2\n3\n".toList,
      fieldsStored 32 line ≤ colCount "1,2\n3\n".toList := by decide
  obtain ⟨res, h1, h2, h3, h4, -⟩ :=
    C7_column_major_no_width_check 32 0 (IStream.open "1,2\n3\n".toList) h
  have hc : colCount "1,2\n3\n".toList = 2 := by decide
  have hr : rowCount "1,2\n3\n".toList = 2 := by decide
  exact ⟨h, res, h1, by rw [h2]; exact hc, by rw [h3]; exact hr, h4⟩

/-- C8, counterexample: the row-major load of `"1,2\n3\n"` returns a `2 x 2` matrix whose
element `(1, 1)` was never assigned. -/
theorem C8_cell_left_unwritten :
    loadFailed (Load 32 1 (IStream.open "1,2\n3\n".toList) false) = false ∧
    (loadedMat (Load 32 1 (IStream.open "1,2\n3\n".toList) false)).map
        (fun m => (m.n_rows, m.n_cols, m.writeCount 1 1, m.elem 1 1)) =
      some (2, 2, 0, none) := by
  decide

/-- C8, amended: on every input in which no line yields more than `ColSize()` values, a
load in either mode returns (given fuel for one pass), every store is inside the
matrix, and no element is assigned twice.  The element of line `j` and field `i`
(`(j, i)` row-major, `(i, j)` column-major) is assigned exactly once when line `j`
yields more than `i` values; otherwise it is never assigned and stays indeterminate: a
line that yields fewer than `ColSize()` values leaves the remaining elements of its row
(column-major: column) unassigned.  So every element of the matrix has been assigned
exactly once when every line yields exactly `ColSize()` values. -/
theorem C8_written_once (w fuel : Nat) (inFile : IStream) (transpose : Bool)
    (hwide : ∀ line ∈ fileLines inFile.text, fieldsStored w line ≤ colCount inFile.text) :
    ∃ res, Load w (fuel + 1) inFile transpose = some (.ok res) ∧
      (∀ x ∈ res.inout.writes, x.row < res.inout.n_rows ∧ x.col < res.inout.n_cols) ∧
      (∀ r c, res.inout.writeCount r c ≤ 1) ∧
      (∀ i j line, (fileLines inFile.text)[j]? = some line →
        res.inout.writeCount (if transpose then i else j) (if transpose then j else i) =
          (if i < fieldsStored w line then 1 else 0) ∧
        (fieldsStored w line ≤ i →
          res.inout.elem (if transpose then i else j) (if transpose then j else i) = none)) ∧
      ((∀ line ∈ fileLines inFile.text, fieldsStored w line = colCount inFile.text) →
        ∀ r c, r < res.inout.n_rows → c < res.inout.n_cols →
          res.inout.writeCount r c = 1) := by
  cases transpose with
  | true =>
    refine ⟨_, by simp only [Load, if_true]; rw [TranposeParse_eq], ?_, ?_, ?_, ?_⟩
    · intro x hx
      obtain ⟨n, vs, g1, g2, g3⟩ := (mem_gridWritesT x _ 0).1 hx
      have hb := allValues_stored_bound w _ _ _ hwide n x.row vs x.val g2 g3
      rw [← rowCount_eq] at hb
      have : x.col = n := by omega
      rw [this]
      exact ⟨hb.2, hb.1⟩
    · intro r c
      simp only [Mat.writeCount]
      rw [countP_gridWritesT]
      split <;> omega
    · intro i j line hline
      simp only [if_true]
      constructor
      · simp only [Mat.writeCount]
        rw [countP_gridWritesT, Nat.sub_zero, allValues_getD_length, hline]
        simp
      · intro hi
        obtain ⟨vs, hvs, hlen⟩ := allValues_row_length w _
          (DatasetInfo.new (colCount inFile.text)) j line hline
        rw [elem_gridWritesT, hvs, Option.some_bind]
        exact List.getElem?_eq_none (by omega)
    · intro hrect r c hr hc
      simp only [Mat.writeCount]
      rw [countP_gridWritesT, Nat.sub_zero, allValues_getD_length]
      have hc2 : c < (fileLines inFile.text).length := by
        rw [← rowCount_eq]; exact hc
      rw [List.getElem?_eq_getElem hc2]
      have := hrect _ (List.getElem_mem hc2)
      simp only [Option.map_some', Option.getD_some, this]
      rw [if_pos ⟨Nat.zero_le _, hr⟩]
  | false =>
    refine ⟨_, by simp only [Load, Bool.false_eq_true, if_false]; rw [NonTranposeParse_eq],
      ?_, ?_, ?_, ?_⟩
    · intro x hx
      obtain ⟨n, vs, g1, g2, g3⟩ := (mem_gridWrites x _ 0).1 hx
      have hb := allValues_stored_bound w _ _ _ hwide n x.col vs x.val g2 g3
      rw [← rowCount_eq] at hb
      have : x.row = n := by omega
      rw [this]
      exact ⟨hb.1, hb.2⟩
    · intro r c
      simp only [Mat.writeCount]
      rw [countP_gridWrites]
      split <;> omega
    · intro i j line hline
      simp only [Bool.false_eq_true, if_false]
      constructor
      · simp only [Mat.writeCount]
        rw [countP_gridWrites, Nat.sub_zero, allValues_getD_length, hline]
        simp
      · intro hi
        obtain ⟨vs, hvs, hlen⟩ := allValues_row_length w _
          (DatasetInfo.new (rowCount inFile.text)) j line hline
        rw [elem_gridWrites, hvs, Option.some_bind]
        exact List.getElem?_eq_none (by omega)
    · intro hrect r c hr hc
      simp only [Mat.writeCount]
      rw [countP_gridWrites, Nat.sub_zero, allValues_getD_length]
      have hr2 : r < (fileLines inFile.text).length := by
        rw [← rowCount_eq]; exact hr
      rw [List.getElem?_eq_getElem hr2]
      have := hrect _ (List.getElem_mem hr2)
      simp only [Option.map_some', Option.getD_some, this]
      rw [if_pos ⟨Nat.zero_le _, hc⟩]

/-- C8, witness: no line of `"x,1\n 2 \n"` yields more than the two values `ColSize()`
counts, the second line yields one: the row-major load keeps every store inside the
`2 x 2` matrix, assigns no element twice and leaves element `(1, 1)` indeterminate. -/
theorem C8_written_once_witness :
    (∀ line ∈ fileLines "x,1\n 2 \n".toList,
      fieldsStored 32 line ≤ colCount "x,1\n 2 \n".toList) ∧
    ∃ res, Load 32 (0 + 1) (IStream.open "x,1\n 2 \n".toList) false = some (.ok res) ∧
      (∀ x ∈ res.inout.writes, x.row < res.inout.n_rows ∧ x.col < res.inout.n_cols) ∧
      (∀ r c, res.inout.writeCount r c ≤ 1) ∧
      res.inout.writeCount 1 0 = 1 ∧ res.inout.writeCount 1 1 = 0 ∧
      res.inout.elem 1 1 = none := by
  have h : ∀ line ∈ fileLines "x,1\n 2 \n".toList,
      fieldsStored 32 line ≤ colCount "x,1\n 2 \n".toList := by decide
  have hl : (fileLines "x,1\n 2 \n".toList)[1]? = some " 2 ".toList := by decide
  have hf : fieldsStored 32 " 2 ".toList = 1 := by decide
  obtain ⟨res, h1, h2, h3, h4, -⟩ :=
    C8_written_once 32 0 (IStream.open "x,1\n 2 \n".toList) false h
  have h40 := h4 0 1 _ hl
  have h41 := h4 1 1 _ hl
  simp only [Bool.false_eq_true, if_false, hf] at h40 h41
  exact ⟨h, res, h1, h2, h3, by simpa using h40.1, by simpa using h41.1,
    h41.2 (le_refl _)⟩

/-- C9, the code at a failing input: after the column-major load of `"a,b\n7,8\n"`
dimension 0 has the two mappings `a ↦ 0`, `b ↦ 1`, and yet element `(0, 1)`, the value
of column 0 in the second record, is the raw number 7 of the numeric list parse. -/
theorem C9_raw_value_in_mapped_dimension :
    (loadedInfo (Load 32 1 (IStream.open "a,b\n7,8\n".toList) true)).map
        (fun info => (info.NumMappings 0, info.tables 2)) =
      some (2, [["a", "b"], []]) ∧
    parseList (CreateNumRule 32) "7,8".toList = ⟨true, [7, 8], []⟩ ∧
    (loadedMat (Load 32 1 (IStream.open "a,b\n7,8\n".toList) true)).map
        (fun m => (m.n_rows, m.n_cols, m.rowElems 0 2, m.rowElems 1 2)) =
      some (2, 2, [some 0, some 7], [some 1, some 8]) := by
  decide

/-- C10, counterexample: the text `"1,2"` holds no line terminator, and `RowSize()`
returns 1. -/
theorem C10_unterminated_line_counted :
    "1,2".toList.count '\n' = 0 ∧ "1,2".toList.count '\r' = 0 ∧
    (RowSize (IStream.open "1,2".toList)).1 = 1 := by
  decide

/-- C10, amended: whatever the state of the stream, `RowSize()` returns the number of
`'\n'` characters of the text, plus one when the text is not empty and does not end in
`'\n'` (the last, unterminated line counts); nothing else of the text matters. -/
theorem C10_RowSize_value (inFile : IStream) :
    (RowSize inFile).1 =
      inFile.text.count '\n' +
        (if inFile.text = [] ∨ inFile.text.getLast? = some '\n' then 0 else 1) :=
  RowSize_count inFile

/-! ## The column count in closed form -/

theorem isFieldChar_iff (c : Char) :
    isFieldChar c = true ↔ c ≠ ',' ∧ c ≠ '\r' ∧ c ≠ '\n' := by
  simp [isFieldChar, and_assoc]

theorem notLineEnd_iff (c : Char) :
    (!(c == '\r' || c == '\n')) = true ↔ c ≠ '\r' ∧ c ≠ '\n' := by
  simp

theorem firstRecord_dropWhile (s : List Char) :
    (firstRecord (s.dropWhile isFieldChar)).count ',' = (firstRecord s).count ',' := by
  induction s with
  | nil => rfl
  | cons c cs ih =>
    by_cases hc : isFieldChar c = true
    · have h0 := (isFieldChar_iff c).1 hc
      have h1 : (!(c == '\r' || c == '\n')) = true := (notLineEnd_iff c).2 h0.2
      have h2 : c ≠ ',' := h0.1
      rw [List.dropWhile_cons, if_pos hc, ih]
      simp only [firstRecord, List.takeWhile_cons, h1, if_true]
      rw [List.count_cons_of_ne (Ne.symm h2)]
    · rw [List.dropWhile_cons, if_neg hc]

theorem listLoop_rawField_count (fuel : Nat) :
    ∀ s : List Char, s.length ≤ fuel → (∀ c ∈ s.head?, isFieldChar c = false) →
      (listLoop rawField fuel s).1.length = (firstRecord s).count ',' := by
  induction fuel with
  | zero =>
    intro s hs _
    have : s = [] := List.length_eq_zero.1 (Nat.le_zero.1 hs)
    subst this
    rfl
  | succ n ih =>
    intro s hs hhead
    cases s with
    | nil => rfl
    | cons c s1 =>
      have hc : isFieldChar c = false := hhead c (by simp)
      by_cases hcomma : c = ','
      · subst hcomma
        have hlen : (s1.dropWhile isFieldChar).length ≤ n := by
          have := dropWhile_length_le isFieldChar s1
          simp only [List.length_cons] at hs
          omega
        have hh : ∀ c ∈ (s1.dropWhile isFieldChar).head?, isFieldChar c = false := by
          intro c hc
          have := List.head?_dropWhile_not isFieldChar s1
          rw [Option.mem_def.1 hc] at this
          simpa using this
        have h1 : (!((',' : Char) == '\r' || (',' : Char) == '\n')) = true := by decide
        simp only [listLoop, beq_self_eq_true, if_true, rawField, List.length_cons,
          ih _ hlen hh, firstRecord_dropWhile]
        simp only [firstRecord, List.takeWhile_cons, h1, if_true, List.count_cons_self]
      · have h1 : (c == ',') = false := by simpa using hcomma
        have h2 : (!(c == '\r' || c == '\n')) = false := by
          cases h : (!(c == '\r' || c == '\n')) with
          | false => rfl
          | true =>
            have := (isFieldChar_iff c).2 ⟨hcomma, (notLineEnd_iff c).1 h⟩
            rw [hc] at this
            exact absurd this (by simp)
        simp only [listLoop, h1, Bool.false_eq_true, if_false, List.length_nil, firstRecord,
          List.takeWhile_cons, h2, List.count_nil]

/-- The value `ColSize()` returns: one more than the number of `','` of the first
record. -/
theorem colCount_eq (text : List Char) :
    colCount text = 1 + (firstRecord text).count ',' := by
  rw [colCount, ColSize_fst]
  simp only [IStream.open, parseList, rawField, List.length_cons]
  rw [listLoop_rawField_count _ _ (le_refl _), firstRecord_dropWhile]
  · omega
  · intro c hc
    have := List.head?_dropWhile_not isFieldChar text
    rw [Option.mem_def.1 hc] at this
    simpa using this

theorem firstRecord_idem (text : List Char) : firstRecord (firstRecord text) = firstRecord text := by
  induction text with
  | nil => rfl
  | cons c cs ih =>
    unfold firstRecord at ih ⊢
    by_cases hc : (!(c == '\r' || c == '\n')) = true
    · simp only [List.takeWhile_cons, hc, if_true, ih]
    · simp only [List.takeWhile_cons, hc, if_false, List.takeWhile_nil]
      simp

/-- C11: for every source text, whatever the state of the stream, `ColSize()` returns one
more than the number of `','` characters before the first `'\r'` or `'\n'` (or the end
of the text); the result is at least 1 and is the one `ColSize()` returns on the first
record alone, so that nothing after the first line terminator matters. -/
theorem C11_ColSize_first_record (inFile : IStream) :
    (ColSize inFile).1 = 1 + (firstRecord inFile.text).count ',' ∧
    1 ≤ (ColSize inFile).1 ∧
    (ColSize inFile).1 = (ColSize (IStream.open (firstRecord inFile.text))).1 := by
  have h := ColSize_colCount inFile
  have h2 := ColSize_colCount (IStream.open (firstRecord inFile.text))
  rw [h, h2, colCount_eq]
  refine ⟨rfl, by omega, ?_⟩
  simp only [IStream.open, colCount_eq, firstRecord_idem]

/-! ## Sizing calls -/

theorem run_text (c : SizingCall) (s : IStream) : (c.run s).2.text = s.text := by
  cases c
  · exact RowSize_text s
  · exact ColSize_text s

theorem runSizing_text (calls : List SizingCall) :
    ∀ s : IStream, (runSizing calls s).2.text = s.text := by
  induction calls with
  | nil => intro s; rfl
  | cons c cs ih =>
    intro s
    simp only [runSizing, ih, run_text]

theorem runSizing_values (calls : List SizingCall) :
    ∀ s : IStream, (runSizing calls s).1 =
      calls.map (fun c => (c.run (IStream.open s.text)).1) := by
  induction calls with
  | nil => intro s; rfl
  | cons c cs ih =>
    intro s
    simp only [runSizing, ih, run_text, List.map_cons]
    congr 1
    cases c
    · simp only [SizingCall.run, RowSize_rowCount, IStream.open]
    · simp only [SizingCall.run, ColSize_colCount, IStream.open]

/-- A load depends on the stream through its text only. -/
theorem Load_text (w fuel : Nat) (s1 s2 : IStream) (transpose : Bool)
    (h : s1.text = s2.text) : Load w fuel s1 transpose = Load w fuel s2 transpose := by
  cases transpose with
  | false =>
    simp only [Load, Bool.false_eq_true, if_false, NonTranposeParse_eq, h]
  | true =>
    cases fuel with
    | zero => simp only [Load, if_true, TranposeParse, tranposeRetry]
    | succ n => simp only [Load, if_true, TranposeParse_eq, h]

/-- C12: sizing is idempotent and does not perturb a load.  On the explicit stream state,
`RowSize()` and `ColSize()` return the same value whatever the read position and the
flags; any sequence of sizing calls returns, call by call, the values the calls return
on the freshly opened file; and a `Load` after the sequence gives the result (matrix,
mapping table and final stream) of the `Load` without it. -/
theorem C12_sizing_idempotent (w fuel : Nat) (text : List Char) (pos : Nat) (eof fail : Bool)
    (calls : List SizingCall) (transpose : Bool) :
    (RowSize ⟨text, pos, eof, fail⟩).1 = (RowSize (IStream.open text)).1 ∧
    (ColSize ⟨text, pos, eof, fail⟩).1 = (ColSize (IStream.open text)).1 ∧
    (runSizing calls ⟨text, pos, eof, fail⟩).1 =
      calls.map (fun c => (c.run (IStream.open text)).1) ∧
    Load w fuel (runSizing calls ⟨text, pos, eof, fail⟩).2 transpose =
      Load w fuel ⟨text, pos, eof, fail⟩ transpose := by
  refine ⟨?_, ?_, runSizing_values calls _, Load_text w fuel _ _ transpose (runSizing_text calls _)⟩
  · rw [RowSize_rowCount, RowSize_rowCount]; rfl
  · rw [ColSize_colCount, ColSize_colCount]; rfl

/-! ## The retry loop -/

theorem TranposeParsePasses_eq (w fuel : Nat) (s : IStream) :
    TranposeParsePasses w (fuel + 1) s = some 1 := by
  unfold TranposeParsePasses
  simp only [tranposePasses, TranposeParseImpl_eq]

theorem loadFailed_Load (w fuel : Nat) (s : IStream) (transpose : Bool) :
    loadFailed (Load w fuel s transpose) = false := by
  cases transpose with
  | false =>
    simp only [Load, Bool.false_eq_true, if_false, NonTranposeParse_eq, loadFailed]
  | true =>
    cases fuel with
    | zero => simp only [Load, if_true, TranposeParse, tranposeRetry, loadFailed]
    | succ n => simp only [Load, if_true, TranposeParse_eq, loadFailed]

/-- C13: for every input the retry loop of `TranposeParse` terminates: with fuel for
`ColSize() + 1` calls of `TranposeParseImpl` the method returns, and whatever the fuel
(at least one call) the loop is left after a number of calls that is at most
`ColSize() + 1` (one call, in fact). -/
theorem C13_retry_terminates (w fuel : Nat) (inFile : IStream) :
    (TranposeParse w ((ColSize inFile).1 + 1) inFile).isSome = true ∧
    ∃ n, TranposeParsePasses w (fuel + 1) inFile = some n ∧ n ≤ (ColSize inFile).1 + 1 := by
  refine ⟨by rw [TranposeParse_eq]; rfl, 1, TranposeParsePasses_eq w fuel inFile, by omega⟩

/-- C16: the generic recognizer is a total fallback.  For every line, the empty one
included, the rule of `CreateCharRule` succeeds, the list parse `charRule % ","` returns
true (`canParse`), and `Load` in either mode, on any file and with any fuel, does not
throw "LoadCSV cannot parse categories". -/
theorem C16_generic_rule_total (w fuel : Nat) (inFile : IStream) (transpose : Bool)
    (line : List Char) :
    (CreateCharRule line).isSome = true ∧
    (CreateCharRule []).isSome = true ∧
    (parseList CreateCharRule line).matched = true ∧
    loadFailed (Load w fuel inFile transpose) = false :=
  ⟨rfl, rfl, parseList_char_matched line, loadFailed_Load w fuel inFile transpose⟩

/-- C17: `TranposeParseImpl` returns true on every call, the first included, and never
throws: a numeric list parse that fails has run no action (so `row` is still 0 at the
test), the `return false` is never taken, and `TranposeParse` makes exactly one pass
over the file. -/
theorem C17_single_pass (w fuel : Nat) (inout : Mat) (infoSet : DatasetInfo) (inFile : IStream)
    (line : List Char) :
    ((parseList (CreateNumRule w) line).matched = true ∨
      (parseList (CreateNumRule w) line).attrs = []) ∧
    (∃ r, TranposeParseImpl w ⟨inout, infoSet, inFile⟩ = .ok (true, r)) ∧
    TranposeParsePasses w (fuel + 1) inFile = some 1 := by
  refine ⟨?_, ⟨_, TranposeParseImpl_eq w inout infoSet inFile⟩, TranposeParsePasses_eq w fuel inFile⟩
  cases hm : (parseList (CreateNumRule w) line).matched with
  | true => exact Or.inl rfl
  | false => exact Or.inr (parseList_unmatched _ _ hm)

/-! ## The two modes side by side -/

theorem colWrites_swap (vs : List Int) :
    ∀ r c, colWrites r c vs = (rowWrites c r vs).map Write.swap := by
  induction vs with
  | nil => intro r c; rfl
  | cons v vs ih =>
    intro r c
    simp only [colWrites, rowWrites, List.map_cons, ih, Write.swap]

theorem gridWritesT_swap (vss : List (List Int)) :
    ∀ j, gridWritesT j vss = (gridWrites j vss).map Write.swap := by
  induction vss with
  | nil => intro j; rfl
  | cons vs vss ih =>
    intro j
    simp only [gridWritesT, gridWrites, List.map_append, ih, colWrites_swap]

theorem MapString_setDim (d : Nat) (info : DatasetInfo) (t : List Char) (dim : Nat) :
    (info.setDim d).MapString t dim =
      ((info.MapString t dim).1, (info.MapString t dim).2.setDim d) := by
  unfold DatasetInfo.MapString DatasetInfo.setDim
  simp only
  split <;> rfl

theorem mapTokens_setDim (w d dim : Nat) (toks : List (List Char)) :
    ∀ info : DatasetInfo, mapTokens w (info.setDim d) dim toks =
      ((mapTokens w info dim toks).1, (mapTokens w info dim toks).2.setDim d) := by
  induction toks with
  | nil => intro info; rfl
  | cons t ts ih =>
    intro info
    simp only [mapTokens, MapString_setDim, ih]

theorem lineValues_setDim (w d j : Nat) (info : DatasetInfo) (line : List Char) :
    lineValues w (info.setDim d) j line =
      ((lineValues w info j line).1, (lineValues w info j line).2.setDim d) := by
  unfold lineValues
  simp only
  split
  · rfl
  · exact mapTokens_setDim w d j _ info

/-- The values stored and the mappings made do not depend on the dimensionality the
table was constructed with. -/
theorem allValues_setDim (w d : Nat) (lines : List (List Char)) :
    ∀ (j : Nat) (info : DatasetInfo), allValues w j (info.setDim d) lines =
      ((allValues w j info lines).1, (allValues w j info lines).2.setDim d) := by
  induction lines with
  | nil => intro j info; rfl
  | cons line lines ih =>
    intro j info
    simp only [allValues, lineValues_setDim, ih]

theorem MapString_maps_mem (info : DatasetInfo) (t : List Char) (dim d : Nat) (x : List Char)
    (h : x ∈ (info.MapString t dim).2.maps d) : x ∈ info.maps d ∨ (d = dim ∧ x = t) := by
  unfold DatasetInfo.MapString at h
  simp only at h
  split at h
  · exact Or.inl h
  · simp only at h
    split at h
    · rename_i hd
      rcases List.mem_append.1 h with h | h
      · left; rw [hd]; exact h
      · right; exact ⟨hd, by simpa using h⟩
    · exact Or.inl h

theorem mapTokens_maps_mem (w dim d : Nat) (x : List Char) (toks : List (List Char)) :
    ∀ info : DatasetInfo, x ∈ (mapTokens w info dim toks).2.maps d →
      x ∈ info.maps d ∨ (d = dim ∧ x ∈ toks) := by
  induction toks with
  | nil => intro info h; exact Or.inl h
  | cons t ts ih =>
    intro info h
    simp only [mapTokens] at h
    rcases ih _ h with h1 | ⟨h1, h2⟩
    · rcases MapString_maps_mem info t dim d x h1 with h3 | ⟨h3, h4⟩
      · exact Or.inl h3
      · exact Or.inr ⟨h3, by rw [h4]; exact List.mem_cons_self _ _⟩
    · exact Or.inr ⟨h1, List.mem_cons_of_mem _ h2⟩

theorem lineValues_maps_mem (w j d : Nat) (x : List Char) (info : DatasetInfo)
    (line : List Char) (h : x ∈ (lineValues w info j line).2.maps d) :
    x ∈ info.maps d ∨
      (d = j ∧ (parseList (CreateNumRule w) line).matched = false ∧
        x ∈ (parseList CreateCharRule line).attrs) := by
  unfold lineValues at h
  simp only at h
  cases hm : (parseList (CreateNumRule w) line).matched with
  | true =>
    rw [hm] at h
    exact Or.inl h
  | false =>
    rw [hm] at h
    simp only [Bool.false_eq_true, if_false] at h
    rcases mapTokens_maps_mem w j d x _ info h with h1 | ⟨h1, h2⟩
    · exact Or.inl h1
    · exact Or.inr ⟨h1, rfl, h2⟩

/-- Every token of dimension `d` of the table comes from the generic list parse of line
`d` of the file. -/
theorem allValues_maps_mem (w d : Nat) (x : List Char) (lines : List (List Char)) :
    ∀ (j : Nat) (info : DatasetInfo), x ∈ (allValues w j info lines).2.maps d →
      x ∈ info.maps d ∨ ∃ n line, d = j + n ∧ lines[n]? = some line ∧
        (parseList (CreateNumRule w) line).matched = false ∧
        x ∈ (parseList CreateCharRule line).attrs := by
  induction lines with
  | nil => intro j info h; exact Or.inl h
  | cons line lines ih =>
    intro j info h
    simp only [allValues] at h
    rcases ih _ _ h with h1 | ⟨n, l, h1, h2, h3, h4⟩
    · rcases lineValues_maps_mem w j d x info line h1 with h5 | ⟨h5, h6, h7⟩
      · exact Or.inl h5
      · exact Or.inr ⟨0, line, by omega, by simp, h6, h7⟩
    · exact Or.inr ⟨n + 1, l, by omega, by simpa using h2, h3, h4⟩

theorem mapTokens_applyCalls (w dim : Nat) (toks : List (List Char)) :
    ∀ info : DatasetInfo,
      (mapTokens w info dim toks).2 = applyCalls info (toks.map (fun t => (t, dim))) := by
  induction toks with
  | nil => intro info; rfl
  | cons t ts ih =>
    intro info
    simp only [mapTokens, ih, applyCalls, List.map_cons, List.foldl_cons]

/-- The table a parser leaves is the table its `MapString` calls make, in order. -/
theorem allValues_applyCalls (w : Nat) (lines : List (List Char)) :
    ∀ (j : Nat) (info : DatasetInfo),
      (allValues w j info lines).2 = applyCalls info (mapCalls w j lines) := by
  induction lines with
  | nil => intro j info; rfl
  | cons line lines ih =>
    intro j info
    simp only [allValues, ih, mapCalls, lineValues]
    cases hm : (parseList (CreateNumRule w) line).matched with
    | true => simp [applyCalls]
    | false =>
      simp only [Bool.false_eq_true, if_false, mapTokens_applyCalls, applyCalls,
        List.foldl_append]

theorem mapCalls_dimension (w : Nat) (lines : List (List Char)) :
    ∀ (j : Nat) (c : List Char × Nat), c ∈ mapCalls w j lines →
      ∃ n line, c.2 = j + n ∧ lines[n]? = some line ∧
        c.1 ∈ (parseList CreateCharRule line).attrs := by
  induction lines with
  | nil => intro j c h; simp [mapCalls] at h
  | cons line lines ih =>
    intro j c h
    simp only [mapCalls, List.mem_append] at h
    rcases h with h | h
    · split at h
      · simp at h
      · obtain ⟨t, ht, rfl⟩ := List.mem_map.1 h
        exact ⟨0, line, rfl, by simp, ht⟩
    · obtain ⟨n, l, h1, h2, h3⟩ := ih _ c h
      exact ⟨n + 1, l, by omega, by simpa using h2, h3⟩

/-- C18: for every input text the column-major load is the index-swapped row-major load.
Both loads return; the column-major matrix is the row-major one index-swapped (shape
swapped, the assignments `(r, c) := v` performed in the same order as `(c, r) := v`);
both tables are made by the same sequence of `MapString(token, dimension)` calls, whose
dimension is always the index of an input line the token comes from; the two tables
hold the same mappings and differ only in the dimensionality they were constructed
with (`RowSize()` against `ColSize()`). -/
theorem C18_column_major_is_swapped_row_major (w fuel : Nat) (inFile : IStream) :
    ∃ rm cm, Load w fuel inFile false = some (.ok rm) ∧
      Load w (fuel + 1) inFile true = some (.ok cm) ∧
      cm.inout = rm.inout.swapped ∧
      rm.infoSet = applyCalls (DatasetInfo.new (RowSize inFile).1)
        (mapCalls w 0 (fileLines inFile.text)) ∧
      cm.infoSet = applyCalls (DatasetInfo.new (ColSize inFile).1)
        (mapCalls w 0 (fileLines inFile.text)) ∧
      (∀ c ∈ mapCalls w 0 (fileLines inFile.text), ∃ line,
        (fileLines inFile.text)[c.2]? = some line ∧
        c.1 ∈ (parseList CreateCharRule line).attrs) ∧
      cm.infoSet.maps = rm.infoSet.maps ∧
      rm.infoSet.dimensionality = (RowSize inFile).1 ∧
      cm.infoSet.dimensionality = (ColSize inFile).1 := by
  have hnew : DatasetInfo.new (colCount inFile.text) =
      (DatasetInfo.new (rowCount inFile.text)).setDim (colCount inFile.text) := rfl
  refine ⟨_, _, by simp only [Load, Bool.false_eq_true, if_false]; rw [NonTranposeParse_eq],
    by simp only [Load, if_true]; rw [TranposeParse_eq], ?_, ?_, ?_, ?_, ?_, ?_, ?_⟩
  · simp only [Mat.swapped, gridWritesT_swap, hnew, allValues_setDim]
  · simp only [allValues_applyCalls, RowSize_rowCount]
  · simp only [allValues_applyCalls, ColSize_colCount]
  · intro c hc
    obtain ⟨n, line, h1, h2, h3⟩ := mapCalls_dimension w _ 0 c hc
    refine ⟨line, ?_, h3⟩
    rw [h1, Nat.zero_add]
    exact h2
  · simp only [hnew, allValues_setDim]
    rfl
  · simp only [allValues_applyCalls, RowSize_rowCount]
    have : ∀ (calls : List (List Char × Nat)) (info : DatasetInfo),
        (applyCalls info calls).dimensionality = info.dimensionality := by
      intro calls
      induction calls with
      | nil => intro info; rfl
      | cons c cs ih =>
        intro info
        simp only [applyCalls, List.foldl_cons] at ih ⊢
        rw [ih]
        unfold DatasetInfo.MapString
        simp only
        split <;> rfl
    rw [this]
    rfl
  · simp only [hnew, allValues_setDim, ColSize_colCount]
    rfl

/-! ## Index safety -/

theorem dropWhile_count_le (p : Char → Bool) (s : List Char) :
    (s.dropWhile p).count ',' ≤ s.count ',' :=
  (List.dropWhile_sublist p).count_le _

theorem intParser_commas (w : Nat) (s : List Char) (v : Int) (r : List Char)
    (h : intParser w s = some (v, r)) : r.count ',' ≤ s.count ',' := by
  cases s with
  | nil => simp [intParser] at h
  | cons c cs =>
    have hbody : (if (c == '-' || c == '+') = true then cs else c :: cs).count ','
        ≤ (c :: cs).count ',' := by
      split
      · exact (List.sublist_cons_self c cs).count_le _
      · exact le_refl _
    generalize hb : (if (c == '-' || c == '+') = true then cs else c :: cs) = body at hbody
    have h2 : intParser w (c :: cs) =
        if (body.takeWhile isDigit).isEmpty then none
        else
          if minT w ≤ (if c == '-' then -(digitsVal (body.takeWhile isDigit) : Int)
                else (digitsVal (body.takeWhile isDigit) : Int)) ∧
              (if c == '-' then -(digitsVal (body.takeWhile isDigit) : Int)
                else (digitsVal (body.takeWhile isDigit) : Int)) ≤ maxT w
          then some ((if c == '-' then -(digitsVal (body.takeWhile isDigit) : Int)
                else (digitsVal (body.takeWhile isDigit) : Int)), body.dropWhile isDigit)
          else none := by
      rw [← hb]
      rfl
    rw [h2] at h
    generalize (if c == '-' then -(digitsVal (body.takeWhile isDigit) : Int)
      else (digitsVal (body.takeWhile isDigit) : Int)) = val at h
    by_cases he : (body.takeWhile isDigit).isEmpty = true
    · rw [if_pos he] at h
      exact absurd h (by simp)
    · rw [if_neg he] at h
      by_cases hr : minT w ≤ val ∧ val ≤ maxT w
      · rw [if_pos hr] at h
        simp only [Option.some.injEq, Prod.mk.injEq] at h
        rw [← h.2]
        exact le_trans (dropWhile_count_le _ _) hbody
      · rw [if_neg hr] at h
        exact absurd h (by simp)

theorem CreateNumRule_commas (w : Nat) (s : List Char) (v : Int) (r : List Char)
    (h : CreateNumRule w s = some (v, r)) : r.count ',' ≤ s.count ',' := by
  unfold CreateNumRule at h
  cases hi : intParser w (skipSpaces s) with
  | none => rw [hi] at h; simp at h
  | some x =>
    obtain ⟨v1, r1⟩ := x
    rw [hi] at h
    simp only [Option.some.injEq, Prod.mk.injEq] at h
    rw [← h.2]
    exact le_trans (dropWhile_count_le _ _)
      (le_trans (intParser_commas w _ v1 r1 hi) (dropWhile_count_le _ _))

theorem CreateCharRule_commas (s : List Char) (t r : List Char)
    (h : CreateCharRule s = some (t, r)) : r.count ',' ≤ s.count ',' := by
  unfold CreateCharRule at h
  simp only [Option.some.injEq, Prod.mk.injEq] at h
  rw [← h.2]
  exact le_trans (dropWhile_count_le _ _)
    (le_trans (dropWhile_count_le _ _) (dropWhile_count_le _ _))

theorem listLoop_attrs_le {α : Type} (p : List Char → Option (α × List Char))
    (hp : ∀ s a r, p s = some (a, r) → r.count ',' ≤ s.count ',') (fuel : Nat) :
    ∀ s : List Char, (listLoop p fuel s).1.length ≤ s.count ',' := by
  induction fuel with
  | zero => intro s; simp [listLoop]
  | succ n ih =>
    intro s
    cases s with
    | nil => simp [listLoop]
    | cons c s1 =>
      simp only [listLoop]
      split
      · rename_i hc
        have hc2 : c = ',' := by simpa using hc
        subst hc2
        cases hps : p s1 with
        | none => simp
        | some x =>
          obtain ⟨a, s2⟩ := x
          have h1 := hp s1 a s2 hps
          have h2 := ih s2
          simp only [List.length_cons, List.count_cons_self]
          omega
      · simp

/-- A list parse yields at most one value more than the line has `','` characters. -/
theorem parseList_attrs_le {α : Type} (p : List Char → Option (α × List Char))
    (hp : ∀ s a r, p s = some (a, r) → r.count ',' ≤ s.count ',') (s : List Char) :
    (parseList p s).attrs.length ≤ s.count ',' + 1 := by
  unfold parseList
  cases hps : p s with
  | none => simp
  | some x =>
    obtain ⟨a, s1⟩ := x
    have h1 := hp s a s1 hps
    have h2 := listLoop_attrs_le p hp s1.length s1
    simp only [List.length_cons]
    omega

theorem fieldsStored_le (w : Nat) (line : List Char) :
    fieldsStored w line ≤ line.count ',' + 1 := by
  unfold fieldsStored
  simp only
  split
  · exact parseList_attrs_le _ (CreateNumRule_commas w) line
  · exact parseList_attrs_le _ CreateCharRule_commas line

theorem allValues_length (w : Nat) (lines : List (List Char)) (j : Nat) (info : DatasetInfo) :
    (allValues w j info lines).1.length = lines.length := by
  have := congrArg List.length (allValues_lengths w lines j info)
  simpa using this

/-- The values of a line of the file are no more than `n` when the line has fewer than
`n` characters `','`: the line index and the value index of every stored value. -/
theorem allValues_index_bound (w : Nat) (lines : List (List Char)) (info : DatasetInfo)
    (n : Nat) (h : ∀ line ∈ lines, line.count ',' + 1 ≤ n) (j i : Nat) (vs : List Int)
    (v : Int) (h1 : (allValues w 0 info lines).1[j]? = some vs) (h2 : vs[i]? = some v) :
    j < lines.length ∧ i < n := by
  have hj : j < (allValues w 0 info lines).1.length := by
    rcases Nat.lt_or_ge j (allValues w 0 info lines).1.length with h | h
    · exact h
    · rw [List.getElem?_eq_none h] at h1
      exact absurd h1 (by simp)
  rw [allValues_length] at hj
  refine ⟨hj, ?_⟩
  have hlen := allValues_getD_length w lines 0 info j
  rw [h1, List.getElem?_eq_getElem hj] at hlen
  simp only [Option.getD_some, Option.map_some'] at hlen
  have hi : i < vs.length := by
    rcases Nat.lt_or_ge i vs.length with h | h
    · exact h
    · rw [List.getElem?_eq_none h] at h2
      exact absurd h2 (by simp)
  have := fieldsStored_le w lines[j]
  have := h _ (List.getElem_mem hj)
  omega

/-- C19: index safety of the matrix assignments.  When every line of the file has at
most `ColSize() - 1` characters `','`, every assignment a load makes, in either mode, is
inside the matrix sized from `RowSize()` and `ColSize()`: its line index is below
`RowSize()` and its field index below `ColSize()`.  Without the precondition it is not
so: on `"1\n2,3\n"` (`ColSize()` is 1) both loads assign at field index 1. -/
theorem C19_writes_in_bounds :
    (∀ (w fuel : Nat) (inFile : IStream) (transpose : Bool),
      (∀ line ∈ fileLines inFile.text, line.count ',' + 1 ≤ (ColSize inFile).1) →
      ∃ res, Load w (fuel + 1) inFile transpose = some (.ok res) ∧
        ∀ x ∈ res.inout.writes,
          x.row < res.inout.n_rows ∧ x.col < res.inout.n_cols ∧
          (if transpose then x.col < (RowSize inFile).1 ∧ x.row < (ColSize inFile).1
            else x.row < (RowSize inFile).1 ∧ x.col < (ColSize inFile).1)) ∧
    ((ColSize (IStream.open "1\n2,3\n".toList)).1 = 1 ∧
      (loadedMat (Load 32 1 (IStream.open "1\n2,3\n".toList) false)).map
          (fun m => (m.n_rows, m.n_cols, m.writes)) =
        some (2, 1, [⟨0, 0, 1⟩, ⟨1, 0, 2⟩, ⟨1, 1, 3⟩]) ∧
      (loadedMat (Load 32 1 (IStream.open "1\n2,3\n".toList) true)).map
          (fun m => (m.n_rows, m.n_cols, m.writes)) =
        some (1, 2, [⟨0, 0, 1⟩, ⟨0, 1, 2⟩, ⟨1, 1, 3⟩])) := by
  refine ⟨?_, by decide⟩
  intro w fuel inFile transpose h
  rw [ColSize_colCount] at h
  cases transpose with
  | false =>
    refine ⟨_, by simp only [Load, Bool.false_eq_true, if_false]; rw [NonTranposeParse_eq], ?_⟩
    intro x hx
    obtain ⟨n, vs, g1, g2, g3⟩ := (mem_gridWrites x _ 0).1 hx
    have hb := allValues_index_bound w _ _ _ h n x.col vs x.val g2 g3
    rw [← rowCount_eq] at hb
    simp only [Bool.false_eq_true, if_false, RowSize_rowCount, ColSize_colCount]
    have : x.row = n := by omega
    rw [this]
    exact ⟨hb.1, hb.2, hb.1, hb.2⟩
  | true =>
    refine ⟨_, by simp only [Load, if_true]; rw [TranposeParse_eq], ?_⟩
    intro x hx
    obtain ⟨n, vs, g1, g2, g3⟩ := (mem_gridWritesT x _ 0).1 hx
    have hb := allValues_index_bound w _ _ _ h n x.row vs x.val g2 g3
    rw [← rowCount_eq] at hb
    simp only [if_true, RowSize_rowCount, ColSize_colCount]
    have : x.col = n := by omega
    rw [this]
    exact ⟨hb.2, hb.1, hb.1, hb.2⟩

/-- C19, witness: no line of `"x,1\n 2 ,3\n"` has more than one `','`, `ColSize()` is 2,
and every assignment of the column-major load is inside the matrix. -/
theorem C19_writes_in_bounds_witness :
    (∀ line ∈ fileLines "x,1\n 2 ,3\n".toList,
      line.count ',' + 1 ≤ (ColSize (IStream.open "x,1\n 2 ,3\n".toList)).1) ∧
    ∃ res, Load 32 (0 + 1) (IStream.open "x,1\n 2 ,3\n".toList) true = some (.ok res) ∧
      ∀ x ∈ res.inout.writes, x.row < res.inout.n_rows ∧ x.col < res.inout.n_cols := by
  have h : ∀ line ∈ fileLines "x,1\n 2 ,3\n".toList,
      line.count ',' + 1 ≤ (ColSize (IStream.open "x,1\n 2 ,3\n".toList)).1 := by decide
  obtain ⟨res, h1, h2⟩ :=
    C19_writes_in_bounds.1 32 0 (IStream.open "x,1\n 2 ,3\n".toList) true h
  exact ⟨h, res, h1, fun x hx => ⟨(h2 x hx).1, (h2 x hx).2.1⟩⟩

/-! ## Spaces around a field -/

theorem takeWhile_append_soft (p : Char → Bool) (u Y : List Char)
    (hY : ∀ c ∈ Y.head?, p c = false) : (u ++ Y).takeWhile p = u.takeWhile p := by
  induction u with
  | nil =>
    cases Y with
    | nil => rfl
    | cons c cs => simp [List.takeWhile_cons, hY c (by simp)]
  | cons c cs ih =>
    simp only [List.cons_append, List.takeWhile_cons, ih]

theorem dropWhile_append_soft (p : Char → Bool) (u Y : List Char)
    (hY : ∀ c ∈ Y.head?, p c = false) : (u ++ Y).dropWhile p = u.dropWhile p ++ Y := by
  induction u with
  | nil =>
    cases Y with
    | nil => rfl
    | cons c cs => simp [List.dropWhile_cons, hY c (by simp)]
  | cons c cs ih =>
    simp only [List.cons_append, List.dropWhile_cons, ih]
    split <;> rfl

theorem skipSpaces_replicate_append (n : Nat) (s : List Char) :
    skipSpaces (List.replicate n ' ' ++ s) = skipSpaces s := by
  induction n with
  | zero => rfl
  | succ k ih =>
    simp only [List.replicate_succ, List.cons_append, skipSpaces, List.dropWhile_cons,
      beq_self_eq_true, if_true]
    exact ih

theorem skipSpaces_append (u Y : List Char) :
    skipSpaces (u ++ Y) = if skipSpaces u = [] then skipSpaces Y else skipSpaces u ++ Y := by
  induction u with
  | nil => simp [skipSpaces]
  | cons c cs ih =>
    by_cases hc : c = ' '
    · subst hc
      simp only [skipSpaces, List.cons_append, List.dropWhile_cons, beq_self_eq_true, if_true]
        at ih ⊢
      exact ih
    · have h : (c == ' ') = false := by simpa using hc
      simp [skipSpaces, List.dropWhile_cons, h]

theorem skipSpaces_boundary (X : List Char) (hX : ∀ c ∈ X.head?, c = ',') :
    skipSpaces X = X := by
  cases X with
  | nil => rfl
  | cons c cs =>
    have := hX c (by simp)
    subst this
    rfl

theorem skipSpaces_head (s : List Char) : ∀ c ∈ (skipSpaces s).head?, c ≠ ' ' := by
  intro c hc
  have := List.head?_dropWhile_not (fun c => c == ' ') s
  unfold skipSpaces at hc
  rw [Option.mem_def.1 hc] at this
  simpa using this

theorem skipSpaces_mem (s : List Char) : ∀ c ∈ skipSpaces s, c ∈ s :=
  fun _ hc => (List.dropWhile_sublist _).subset hc

theorem soft_not_digit (Y : List Char) (hY : ∀ c ∈ Y.head?, c = ',' ∨ c = ' ') :
    ∀ c ∈ Y.head?, isDigit c = false := by
  intro c hc
  rcases hY c hc with h | h <;> rw [h] <;> decide

theorem soft_not_token (Y : List Char) (hY : ∀ c ∈ Y.head?, c = ',' ∨ c = ' ') :
    ∀ c ∈ Y.head?, isTokenChar c = false := by
  intro c hc
  rcases hY c hc with h | h <;> rw [h] <;> decide

theorem dropWhile_no_comma (p : Char → Bool) (u : List Char) (hu : ∀ c ∈ u, c ≠ ',') :
    ∀ c ∈ u.dropWhile p, c ≠ ',' :=
  fun c hc => hu c ((List.dropWhile_sublist p).subset hc)

/-- In front of a `','`, a `' '` or the end of the line, what the integer parser does
with a field depends on the field alone. -/
theorem intParser_local (w : Nat) (u : List Char) (hu : ∀ c ∈ u, c ≠ ',') :
    (∀ Y : List Char, (∀ c ∈ Y.head?, c = ',' ∨ c = ' ') → intParser w (u ++ Y) = none) ∨
    (∃ a d, (∀ c ∈ d, c ≠ ',') ∧ ∀ Y : List Char, (∀ c ∈ Y.head?, c = ',' ∨ c = ' ') →
      intParser w (u ++ Y) = some (a, d ++ Y)) := by
  cases u with
  | nil =>
    left
    intro Y hY
    cases Y with
    | nil => rfl
    | cons c cs =>
      rcases hY c (by simp) with h | h <;> subst h <;> rfl
  | cons c u1 =>
    generalize hb : (if (c == '-' || c == '+') = true then u1 else c :: u1) = body
    have hbody : ∀ Y : List Char,
        (if (c == '-' || c == '+') = true then u1 ++ Y else c :: (u1 ++ Y)) = body ++ Y := by
      intro Y
      rw [← hb]
      split <;> rfl
    have hbc : ∀ x ∈ body, x ≠ ',' := by
      rw [← hb]
      split
      · exact fun x hx => hu x (List.mem_cons_of_mem _ hx)
      · exact hu
    have key : ∀ Y : List Char, (∀ c ∈ Y.head?, c = ',' ∨ c = ' ') →
        intParser w (c :: u1 ++ Y) =
          if (body.takeWhile isDigit).isEmpty then none
          else
            if minT w ≤ (if c == '-' then -(digitsVal (body.takeWhile isDigit) : Int)
                  else (digitsVal (body.takeWhile isDigit) : Int)) ∧
                (if c == '-' then -(digitsVal (body.takeWhile isDigit) : Int)
                  else (digitsVal (body.takeWhile isDigit) : Int)) ≤ maxT w
            then some ((if c == '-' then -(digitsVal (body.takeWhile isDigit) : Int)
                  else (digitsVal (body.takeWhile isDigit) : Int)), body.dropWhile isDigit ++ Y)
            else none := by
      intro Y hY
      rw [← takeWhile_append_soft isDigit body Y (soft_not_digit Y hY),
        ← dropWhile_append_soft isDigit body Y (soft_not_digit Y hY), ← hbody Y]
      rfl
    by_cases he : (body.takeWhile isDigit).isEmpty = true
    · left
      intro Y hY
      rw [key Y hY, if_pos he]
    · by_cases hr : minT w ≤ (if c == '-' then -(digitsVal (body.takeWhile isDigit) : Int)
                  else (digitsVal (body.takeWhile isDigit) : Int)) ∧
                (if c == '-' then -(digitsVal (body.takeWhile isDigit) : Int)
                  else (digitsVal (body.takeWhile isDigit) : Int)) ≤ maxT w
      · right
        refine ⟨(if c == '-' then -(digitsVal (body.takeWhile isDigit) : Int)
          else (digitsVal (body.takeWhile isDigit) : Int)), body.dropWhile isDigit,
          dropWhile_no_comma _ _ hbc, ?_⟩
        intro Y hY
        rw [key Y hY, if_neg he, if_pos hr]
      · left
        intro Y hY
        rw [key Y hY, if_neg he, if_neg hr]

/-- In front of a `','`, a `' '` or the end of the line, the token of a field depends on
the field alone. -/
theorem tokenCore_local (u : List Char) (hu : ∀ c ∈ u, c ≠ ',') :
    (∀ Y : List Char, (∀ c ∈ Y.head?, c = ',' ∨ c = ' ') → tokenCore (u ++ Y) = none) ∨
    (∃ a d, (∀ c ∈ d, c ≠ ',') ∧ ∀ Y : List Char, (∀ c ∈ Y.head?, c = ',' ∨ c = ' ') →
      tokenCore (u ++ Y) = some (a, d ++ Y)) := by
  right
  refine ⟨u.takeWhile isTokenChar, u.dropWhile isTokenChar, dropWhile_no_comma _ _ hu, ?_⟩
  intro Y hY
  unfold tokenCore
  rw [takeWhile_append_soft _ _ _ (soft_not_token Y hY),
    dropWhile_append_soft _ _ _ (soft_not_token Y hY)]

theorem CreateNumRule_spaced (w : Nat) : CreateNumRule w = spaced (intParser w) := by
  funext s
  unfold CreateNumRule spaced
  cases intParser w (skipSpaces s) with
  | none => rfl
  | some x => rfl

theorem CreateCharRule_spaced : CreateCharRule = spaced tokenCore := by
  funext s
  unfold CreateCharRule spaced tokenCore
  rfl

/-- What a rule `skip spaces, core, skip spaces` does with a field in front of spaces and
then a `','` or the end of the line depends on the field alone: it fails, or it yields
its attribute and stops at the `','` (or the end), or it yields its attribute and stops
inside the field. -/
theorem spaced_local {α : Type} (core : List Char → Option (α × List Char))
    (hcore : ∀ u : List Char, (∀ c ∈ u, c ≠ ',') →
      (∀ Y : List Char, (∀ c ∈ Y.head?, c = ',' ∨ c = ' ') → core (u ++ Y) = none) ∨
      (∃ a d, (∀ c ∈ d, c ≠ ',') ∧ ∀ Y : List Char, (∀ c ∈ Y.head?, c = ',' ∨ c = ' ') →
        core (u ++ Y) = some (a, d ++ Y)))
    (body : List Char) (hbody : ∀ c ∈ body, c ≠ ',') :
    (∀ Y Z : List Char, (∀ c ∈ Y.head?, c = ',' ∨ c = ' ') → (∀ c ∈ Z.head?, c = ',') →
      skipSpaces Y = Z → spaced core (body ++ Y) = none) ∨
    (∃ a, ∀ Y Z : List Char, (∀ c ∈ Y.head?, c = ',' ∨ c = ' ') → (∀ c ∈ Z.head?, c = ',') →
      skipSpaces Y = Z → spaced core (body ++ Y) = some (a, Z)) ∨
    (∃ a c, c ≠ ',' ∧ ∀ Y Z : List Char, (∀ c ∈ Y.head?, c = ',' ∨ c = ' ') →
      (∀ c ∈ Z.head?, c = ',') → skipSpaces Y = Z →
      ∃ t, spaced core (body ++ Y) = some (a, c :: t)) := by
  have hsoftZ : ∀ Z : List Char, (∀ c ∈ Z.head?, c = ',') →
      ∀ c ∈ Z.head?, c = ',' ∨ c = ' ' := fun Z hZ c hc => Or.inl (hZ c hc)
  -- the input of the core parser, for both kinds of continuation
  have hin : ∀ Y Z : List Char, (∀ c ∈ Y.head?, c = ',' ∨ c = ' ') → (∀ c ∈ Z.head?, c = ',') →
      skipSpaces Y = Z →
      ∃ Y0, (∀ c ∈ Y0.head?, c = ',' ∨ c = ' ') ∧ skipSpaces Y0 = Z ∧
        skipSpaces (body ++ Y) = skipSpaces body ++ Y0 := by
    intro Y Z hY hZ hYZ
    rw [skipSpaces_append]
    by_cases hb : skipSpaces body = []
    · rw [if_pos hb, hb, hYZ]
      exact ⟨Z, hsoftZ Z hZ, skipSpaces_boundary Z hZ, rfl⟩
    · rw [if_neg hb]
      exact ⟨Y, hY, hYZ, rfl⟩
  have hu : ∀ c ∈ skipSpaces body, c ≠ ',' := fun c hc => hbody c (skipSpaces_mem body c hc)
  rcases hcore (skipSpaces body) hu with hnone | ⟨a, d, hd, hsome⟩
  · left
    intro Y Z hY hZ hYZ
    obtain ⟨Y0, hY0, -, heq⟩ := hin Y Z hY hZ hYZ
    unfold spaced
    rw [heq, hnone Y0 hY0]
  · right
    by_cases hds : skipSpaces d = []
    · left
      refine ⟨a, ?_⟩
      intro Y Z hY hZ hYZ
      obtain ⟨Y0, hY0, hY0Z, heq⟩ := hin Y Z hY hZ hYZ
      unfold spaced
      rw [heq, hsome Y0 hY0]
      simp only [skipSpaces_append, hds, if_true, hY0Z]
    · right
      cases hsd : skipSpaces d with
      | nil => exact absurd hsd hds
      | cons c t =>
        have hc1 : c ≠ ',' := hd c (skipSpaces_mem d c (by rw [hsd]; exact List.mem_cons_self _ _))
        refine ⟨a, c, hc1, ?_⟩
        intro Y Z hY hZ hYZ
        obtain ⟨Y0, hY0, hY0Z, heq⟩ := hin Y Z hY hZ hYZ
        unfold spaced
        rw [heq, hsome Y0 hY0]
        simp only [skipSpaces_append, hsd]
        exact ⟨t ++ Y0, by simp⟩

theorem baseTail_head (fs : List PadField) : ∀ c ∈ (baseTail fs).head?, c = ',' := by
  intro c hc
  cases fs with
  | nil => simp [baseTail] at hc
  | cons f fs => simp [baseTail] at hc; exact hc.symm

theorem padTail_head (fs : List PadField) : ∀ c ∈ (padTail fs).head?, c = ',' := by
  intro c hc
  cases fs with
  | nil => simp [padTail] at hc
  | cons f fs => simp [padTail] at hc; exact hc.symm

theorem trail_soft (n : Nat) (X : List Char) (hX : ∀ c ∈ X.head?, c = ',') :
    ∀ c ∈ (List.replicate n ' ' ++ X).head?, c = ',' ∨ c = ' ' := by
  intro c hc
  cases n with
  | zero => exact Or.inl (hX c (by simpa using hc))
  | succ k =>
    simp [List.replicate_succ] at hc
    exact Or.inr hc.symm

theorem trail_skip (n : Nat) (X : List Char) (hX : ∀ c ∈ X.head?, c = ',') :
    skipSpaces (List.replicate n ' ' ++ X) = X := by
  rw [skipSpaces_replicate_append, skipSpaces_boundary X hX]

theorem spaced_padded {α : Type} (core : List Char → Option (α × List Char)) (f : PadField)
    (X : List Char) :
    spaced core (f.padded ++ X) = spaced core (f.body ++ (List.replicate f.trail ' ' ++ X)) := by
  unfold spaced PadField.padded
  simp only [List.append_assoc, skipSpaces_replicate_append]

theorem listLoop_stuck {α : Type} (p : List Char → Option (α × List Char)) (fuel : Nat)
    (c : Char) (t : List Char) (hc : c ≠ ',') : (listLoop p fuel (c :: t)).1 = [] := by
  have h : (c == ',') = false := by simpa using hc
  cases fuel with
  | zero => rfl
  | succ n => simp [listLoop, h]

/-- The loop of a list parse yields the same attributes on the remaining fields of a
line with and without the spaces inserted. -/
theorem listLoop_pad {α : Type} (core : List Char → Option (α × List Char))
    (hcore : ∀ u : List Char, (∀ c ∈ u, c ≠ ',') →
      (∀ Y : List Char, (∀ c ∈ Y.head?, c = ',' ∨ c = ' ') → core (u ++ Y) = none) ∨
      (∃ a d, (∀ c ∈ d, c ≠ ',') ∧ ∀ Y : List Char, (∀ c ∈ Y.head?, c = ',' ∨ c = ' ') →
        core (u ++ Y) = some (a, d ++ Y)))
    (fs : List PadField) :
    (∀ f ∈ fs, ∀ c ∈ f.body, c ≠ ',') → ∀ fuel fuel2 : Nat,
      (baseTail fs).length ≤ fuel → (padTail fs).length ≤ fuel2 →
      (listLoop (spaced core) fuel (baseTail fs)).1 =
        (listLoop (spaced core) fuel2 (padTail fs)).1 := by
  induction fs with
  | nil =>
    intro _ fuel fuel2 _ _
    cases fuel <;> cases fuel2 <;> rfl
  | cons f fs ih =>
    intro hfs fuel fuel2 h1 h2
    have hf := hfs f (List.mem_cons_self _ _)
    have hrest : ∀ g ∈ fs, ∀ c ∈ g.body, c ≠ ',' :=
      fun g hg => hfs g (List.mem_cons_of_mem _ hg)
    cases fuel with
    | zero => simp [baseTail] at h1
    | succ n =>
      cases fuel2 with
      | zero => simp [padTail] at h2
      | succ m =>
        simp only [baseTail, padTail, listLoop, beq_self_eq_true, if_true, spaced_padded]
        rcases spaced_local core hcore f.body hf with hA | ⟨a, hB⟩ | ⟨a, c, hc, hC⟩
        · rw [hA _ _ (fun c hc => Or.inl (baseTail_head fs c hc)) (baseTail_head fs)
              (skipSpaces_boundary _ (baseTail_head fs)),
            hA _ _ (trail_soft f.trail _ (padTail_head fs)) (padTail_head fs)
              (trail_skip f.trail _ (padTail_head fs))]
        · rw [hB _ _ (fun c hc => Or.inl (baseTail_head fs c hc)) (baseTail_head fs)
              (skipSpaces_boundary _ (baseTail_head fs)),
            hB _ _ (trail_soft f.trail _ (padTail_head fs)) (padTail_head fs)
              (trail_skip f.trail _ (padTail_head fs))]
          have hn : (baseTail fs).length ≤ n := by
            simp only [baseTail, List.length_cons, List.length_append] at h1
            omega
          have hm : (padTail fs).length ≤ m := by
            simp only [padTail, List.length_cons, List.length_append] at h2
            omega
          simp only [ih hrest n m hn hm]
        · obtain ⟨t, ht⟩ := hC _ _ (fun c hc => Or.inl (baseTail_head fs c hc))
              (baseTail_head fs) (skipSpaces_boundary _ (baseTail_head fs))
          obtain ⟨t2, ht2⟩ := hC _ _ (trail_soft f.trail _ (padTail_head fs)) (padTail_head fs)
              (trail_skip f.trail _ (padTail_head fs))
          rw [ht, ht2]
          simp only [listLoop_stuck _ _ c _ hc]

/-- A list parse matches and yields the same attributes on a line with and without the
spaces inserted around its fields. -/
theorem parseList_pad {α : Type} (core : List Char → Option (α × List Char))
    (hcore : ∀ u : List Char, (∀ c ∈ u, c ≠ ',') →
      (∀ Y : List Char, (∀ c ∈ Y.head?, c = ',' ∨ c = ' ') → core (u ++ Y) = none) ∨
      (∃ a d, (∀ c ∈ d, c ≠ ',') ∧ ∀ Y : List Char, (∀ c ∈ Y.head?, c = ',' ∨ c = ' ') →
        core (u ++ Y) = some (a, d ++ Y)))
    (l : List PadField) (hl : ∀ f ∈ l, ∀ c ∈ f.body, c ≠ ',') :
    (parseList (spaced core) (padLine l)).matched =
        (parseList (spaced core) (baseLine l)).matched ∧
      (parseList (spaced core) (padLine l)).attrs =
        (parseList (spaced core) (baseLine l)).attrs := by
  cases l with
  | nil => exact ⟨rfl, rfl⟩
  | cons f fs =>
    have hf := hl f (List.mem_cons_self _ _)
    have hrest : ∀ g ∈ fs, ∀ c ∈ g.body, c ≠ ',' :=
      fun g hg => hl g (List.mem_cons_of_mem _ hg)
    simp only [padLine, baseLine, parseList, spaced_padded]
    rcases spaced_local core hcore f.body hf with hA | ⟨a, hB⟩ | ⟨a, c, hc, hC⟩
    · rw [hA _ _ (fun c hc => Or.inl (baseTail_head fs c hc)) (baseTail_head fs)
          (skipSpaces_boundary _ (baseTail_head fs)),
        hA _ _ (trail_soft f.trail _ (padTail_head fs)) (padTail_head fs)
          (trail_skip f.trail _ (padTail_head fs))]
      exact ⟨rfl, rfl⟩
    · rw [hB _ _ (fun c hc => Or.inl (baseTail_head fs c hc)) (baseTail_head fs)
          (skipSpaces_boundary _ (baseTail_head fs)),
        hB _ _ (trail_soft f.trail _ (padTail_head fs)) (padTail_head fs)
          (trail_skip f.trail _ (padTail_head fs))]
      refine ⟨rfl, ?_⟩
      simp only [listLoop_pad core hcore fs hrest _ _ (le_refl _) (le_refl _)]
    · obtain ⟨t, ht⟩ := hC _ _ (fun c hc => Or.inl (baseTail_head fs c hc))
          (baseTail_head fs) (skipSpaces_boundary _ (baseTail_head fs))
      obtain ⟨t2, ht2⟩ := hC _ _ (trail_soft f.trail _ (padTail_head fs)) (padTail_head fs)
          (trail_skip f.trail _ (padTail_head fs))
      rw [ht, ht2]
      refine ⟨rfl, ?_⟩
      simp only [listLoop_stuck _ _ c _ hc]

/-- Both parsers store the same values for a line, and make the same mappings, with and
without the spaces inserted around its fields. -/
theorem lineValues_pad (w : Nat) (info : DatasetInfo) (j : Nat) (l : List PadField)
    (hl : ∀ f ∈ l, ∀ c ∈ f.body, c ≠ ',') :
    lineValues w info j (padLine l) = lineValues w info j (baseLine l) := by
  have h1 := parseList_pad (intParser w) (intParser_local w) l hl
  have h2 := parseList_pad tokenCore tokenCore_local l hl
  rw [← CreateNumRule_spaced, ← CreateCharRule_spaced] at *
  unfold lineValues
  simp only [h1.1, h1.2, h2.2]

theorem allValues_pad (w : Nat) (ls : List (List PadField)) :
    (∀ l ∈ ls, ∀ f ∈ l, ∀ c ∈ f.body, c ≠ ',') → ∀ (j : Nat) (info : DatasetInfo),
      allValues w j info (ls.map padLine) = allValues w j info (ls.map baseLine) := by
  induction ls with
  | nil => intro _ j info; rfl
  | cons l ls ih =>
    intro h j info
    have hl := h l (List.mem_cons_self _ _)
    have hrest : ∀ k ∈ ls, ∀ f ∈ k, ∀ c ∈ f.body, c ≠ ',' :=
      fun k hk => h k (List.mem_cons_of_mem _ hk)
    simp only [List.map_cons, allValues, lineValues_pad w info j l hl, ih hrest]

theorem fileLines_linesText (ls : List (List Char)) (last : List Char)
    (hls : ∀ l ∈ ls, ∀ c ∈ l, c ≠ '\n') (hlast : ∀ c ∈ last, c ≠ '\n') :
    fileLines (linesText ls last) = ls ++ (if last = [] then [] else [last]) := by
  rw [fileLines_eq]
  induction ls with
  | nil =>
    rw [linesText, splitLines_no_nl last [] hlast]
    cases last <;> simp
  | cons l ls ih =>
    have h1 := hls l (List.mem_cons_self _ _)
    have h2 : ∀ k ∈ ls, ∀ c ∈ k, c ≠ '\n' := fun k hk => hls k (List.mem_cons_of_mem _ hk)
    rw [linesText, splitLines_line l _ [] h1, ih h2]
    simp

theorem baseText_eq (ls : List (List PadField)) (last : List PadField) :
    baseText ls last = linesText (ls.map baseLine) (baseLine last) := by
  induction ls with
  | nil => rfl
  | cons l ls ih => simp only [baseText, List.map_cons, linesText, ih]

theorem padText_eq (ls : List (List PadField)) (last : List PadField) :
    padText ls last = linesText (ls.map padLine) (padLine last) := by
  induction ls with
  | nil => rfl
  | cons l ls ih => simp only [padText, List.map_cons, linesText, ih]

theorem padded_mem (f : PadField) (c : Char) (hc : c ∈ f.padded) : c = ' ' ∨ c ∈ f.body := by
  simp only [PadField.padded, List.mem_append] at hc
  rcases hc with hc | hc | hc
  · exact Or.inl (List.mem_replicate.1 hc).2
  · exact Or.inr hc
  · exact Or.inl (List.mem_replicate.1 hc).2

theorem baseTail_no_nl (fs : List PadField) (h : ∀ f ∈ fs, ∀ c ∈ f.body, c ≠ '\n') :
    ∀ c ∈ baseTail fs, c ≠ '\n' := by
  induction fs with
  | nil => intro c hc; simp [baseTail] at hc
  | cons f fs ih =>
    intro c hc
    simp only [baseTail, List.mem_cons, List.mem_append] at hc
    rcases hc with hc | hc | hc
    · rw [hc]; decide
    · exact h f (List.mem_cons_self _ _) c hc
    · exact ih (fun g hg => h g (List.mem_cons_of_mem _ hg)) c hc

theorem padTail_no_nl (fs : List PadField) (h : ∀ f ∈ fs, ∀ c ∈ f.body, c ≠ '\n') :
    ∀ c ∈ padTail fs, c ≠ '\n' := by
  induction fs with
  | nil => intro c hc; simp [padTail] at hc
  | cons f fs ih =>
    intro c hc
    simp only [padTail, List.mem_cons, List.mem_append] at hc
    rcases hc with hc | hc | hc
    · rw [hc]; decide
    · rcases padded_mem f c hc with h1 | h1
      · rw [h1]; decide
      · exact h f (List.mem_cons_self _ _) c h1
    · exact ih (fun g hg => h g (List.mem_cons_of_mem _ hg)) c hc

theorem baseLine_no_nl (l : List PadField) (h : ∀ f ∈ l, ∀ c ∈ f.body, c ≠ '\n') :
    ∀ c ∈ baseLine l, c ≠ '\n' := by
  cases l with
  | nil => intro c hc; simp [baseLine] at hc
  | cons f fs =>
    intro c hc
    simp only [baseLine, List.mem_append] at hc
    rcases hc with hc | hc
    · exact h f (List.mem_cons_self _ _) c hc
    · exact baseTail_no_nl fs (fun g hg => h g (List.mem_cons_of_mem _ hg)) c hc

theorem padLine_no_nl (l : List PadField) (h : ∀ f ∈ l, ∀ c ∈ f.body, c ≠ '\n') :
    ∀ c ∈ padLine l, c ≠ '\n' := by
  cases l with
  | nil => intro c hc; simp [padLine] at hc
  | cons f fs =>
    intro c hc
    simp only [padLine, List.mem_append] at hc
    rcases hc with hc | hc
    · rcases padded_mem f c hc with h1 | h1
      · rw [h1]; decide
      · exact h f (List.mem_cons_self _ _) c h1
    · exact padTail_no_nl fs (fun g hg => h g (List.mem_cons_of_mem _ hg)) c hc

theorem padLine_eq_nil (l : List PadField) (h : padLine l = []) : baseLine l = [] := by
  cases l with
  | nil => rfl
  | cons f fs =>
    simp only [padLine, PadField.padded, List.append_eq_nil] at h
    obtain ⟨⟨-, hb, -⟩, ht⟩ := h
    cases fs with
    | nil => simp [baseLine, baseTail, hb]
    | cons g gs => simp [padTail] at ht

/-- The lines of a text, as it is and with the spaces inserted. -/
theorem fileLines_baseText (ls : List (List PadField)) (last : List PadField)
    (h : ∀ l ∈ last :: ls, ∀ f ∈ l, ∀ c ∈ f.body, c ≠ '\n')
    (hlast : last = [] ∨ baseLine last ≠ []) :
    fileLines (baseText ls last) = (textLines ls last).map baseLine ∧
    fileLines (padText ls last) = (textLines ls last).map padLine := by
  have hl : ∀ l ∈ ls, ∀ f ∈ l, ∀ c ∈ f.body, c ≠ '\n' :=
    fun l hl => h l (List.mem_cons_of_mem _ hl)
  have h0 := h last (List.mem_cons_self _ _)
  rw [baseText_eq, padText_eq, fileLines_linesText, fileLines_linesText]
  · unfold textLines
    rcases hlast with hlast | hlast
    · subst hlast
      simp [baseLine, padLine]
    · have h1 : last ≠ [] := by
        intro h2; subst h2; exact hlast rfl
      have h2 : padLine last ≠ [] := fun h3 => hlast (padLine_eq_nil last h3)
      simp [h1, h2, hlast]
  · intro l hl2
    obtain ⟨k, hk, rfl⟩ := List.mem_map.1 hl2
    exact padLine_no_nl k (hl k hk)
  · exact padLine_no_nl last h0
  · intro l hl2
    obtain ⟨k, hk, rfl⟩ := List.mem_map.1 hl2
    exact baseLine_no_nl k (hl k hk)
  · exact baseLine_no_nl last h0

theorem firstRecord_despace (t : List Char) :
    (firstRecord (despace t)).count ',' = (firstRecord t).count ',' := by
  induction t with
  | nil => rfl
  | cons c cs ih =>
    by_cases hc : c = ' '
    · subst hc
      have h1 : despace (' ' :: cs) = despace cs := by simp [despace]
      have h2 : firstRecord (' ' :: cs) = ' ' :: firstRecord cs := by
        simp [firstRecord, List.takeWhile_cons]
      rw [h1, h2, ih, List.count_cons_of_ne (by decide)]
    · have h1 : despace (c :: cs) = c :: despace cs := by simp [despace, hc]
      rw [h1]
      unfold firstRecord at ih ⊢
      by_cases he : (!(c == '\r' || c == '\n')) = true
      · simp only [List.takeWhile_cons, he, if_true, List.count_cons, ih]
      · simp only [List.takeWhile_cons, he, if_false]
        simp

theorem despace_replicate (n : Nat) : despace (List.replicate n ' ') = [] := by
  induction n with
  | zero => rfl
  | succ k ih =>
    rw [List.replicate_succ]
    simp only [despace, List.filter_cons] at ih ⊢
    exact ih

theorem despace_append (a b : List Char) : despace (a ++ b) = despace a ++ despace b := by
  simp [despace]

theorem despace_padded (f : PadField) : despace f.padded = despace f.body := by
  simp [PadField.padded, despace_append, despace_replicate]

theorem despace_padTail (fs : List PadField) : despace (padTail fs) = despace (baseTail fs) := by
  induction fs with
  | nil => rfl
  | cons f fs ih =>
    have h : despace (',' :: (f.padded ++ padTail fs)) = ',' :: despace (f.padded ++ padTail fs) := by
      simp [despace]
    have h2 : despace (',' :: (f.body ++ baseTail fs)) = ',' :: despace (f.body ++ baseTail fs) := by
      simp [despace]
    rw [padTail, baseTail, h, h2, despace_append, despace_append, despace_padded, ih]

theorem despace_padLine (l : List PadField) : despace (padLine l) = despace (baseLine l) := by
  cases l with
  | nil => rfl
  | cons f fs => rw [padLine, baseLine, despace_append, despace_append, despace_padded,
      despace_padTail]

theorem despace_padText (ls : List (List PadField)) (last : List PadField) :
    despace (padText ls last) = despace (baseText ls last) := by
  induction ls with
  | nil => exact despace_padLine last
  | cons l ls ih =>
    have h : ∀ t : List Char, despace ('\n' :: t) = '\n' :: despace t := by
      intro t; simp [despace]
    rw [padText, baseText, despace_append, despace_append, h, h, despace_padLine, ih]

/-- The value of `ColSize()` does not change when the spaces are inserted. -/
theorem colCount_padText (ls : List (List PadField)) (last : List PadField) :
    colCount (padText ls last) = colCount (baseText ls last) := by
  rw [colCount_eq, colCount_eq, ← firstRecord_despace (padText ls last),
    ← firstRecord_despace (baseText ls last), despace_padText]

/-- C14, counterexample: a space inserted after the last `'\n'` of `"1\n"` (at the start
of a line, before an empty field) is a line of its own for `getline`: `"1\n "` loads as
two lines, with the token `""` mapped in dimension 1, and `"1\n"` as one line. -/
theorem C14_space_after_last_newline :
    baseText lineOne spaceAfterLast = "1\n".toList ∧
    padText lineOne spaceAfterLast = "1\n ".toList ∧
    (loadedMat (Load 32 1 (IStream.open "1\n ".toList) false)).map
        (fun m => (m.n_rows, m.n_cols, m.writes)) = some (2, 1, [⟨0, 0, 1⟩, ⟨1, 0, 0⟩]) ∧
    (loadedMat (Load 32 1 (IStream.open "1\n".toList) false)).map
        (fun m => (m.n_rows, m.n_cols, m.writes)) = some (1, 1, [⟨0, 0, 1⟩]) ∧
    (loadedMat (Load 32 1 (IStream.open "1\n ".toList) true)).map
        (fun m => (m.n_rows, m.n_cols, m.writes)) = some (1, 2, [⟨0, 0, 1⟩, ⟨0, 1, 0⟩]) ∧
    (loadedMat (Load 32 1 (IStream.open "1\n".toList) true)).map
        (fun m => (m.n_rows, m.n_cols, m.writes)) = some (1, 1, [⟨0, 0, 1⟩]) ∧
    (loadedInfo (Load 32 1 (IStream.open "1\n ".toList) false)).map
        (fun info => info.tables 2) = some [[], [""]] ∧
    (loadedInfo (Load 32 1 (IStream.open "1\n".toList) false)).map
        (fun info => info.tables 2) = some [[], []] := by
  decide

/-- C14, amended: spaces around a field are insignificant, unless they make a line of
what was none.  Take any text (lines terminated by `'\n'`, then possibly a last line
without terminator that is not empty), its lines split into fields at the `','`
characters, and insert any number of `' '` immediately before and after any of the
fields: `Load`, in either mode, produces the same matrix and the same mapping table
for the text with the spaces as for the text without them (so removing such spaces
changes nothing either, as long as the text without them keeps its last line). -/
theorem C14_spaces_insignificant (w fuel : Nat) (ls : List (List PadField))
    (last : List PadField) (transpose : Bool)
    (hbody : ∀ l ∈ last :: ls, ∀ f ∈ l, ∀ c ∈ f.body, c ≠ ',' ∧ c ≠ '\n')
    (hlast : last = [] ∨ baseLine last ≠ []) :
    loadedMat (Load w fuel (IStream.open (padText ls last)) transpose) =
      loadedMat (Load w fuel (IStream.open (baseText ls last)) transpose) ∧
    loadedInfo (Load w fuel (IStream.open (padText ls last)) transpose) =
      loadedInfo (Load w fuel (IStream.open (baseText ls last)) transpose) := by
  have hnl : ∀ l ∈ last :: ls, ∀ f ∈ l, ∀ c ∈ f.body, c ≠ '\n' :=
    fun l hl f hf c hc => (hbody l hl f hf c hc).2
  have hcomma : ∀ l ∈ textLines ls last, ∀ f ∈ l, ∀ c ∈ f.body, c ≠ ',' := by
    intro l hl f hf c hc
    have hmem : l ∈ last :: ls := by
      unfold textLines at hl
      rcases List.mem_append.1 hl with h | h
      · exact List.mem_cons_of_mem _ h
      · split at h
        · simp at h
        · simp only [List.mem_singleton] at h
          rw [h]; exact List.mem_cons_self _ _
    exact (hbody l hmem f hf c hc).1
  obtain ⟨hbl, hpl⟩ := fileLines_baseText ls last hnl hlast
  have hrows : rowCount (padText ls last) = rowCount (baseText ls last) := by
    rw [rowCount_eq, rowCount_eq, hbl, hpl, List.length_map, List.length_map]
  have hcols := colCount_padText ls last
  cases transpose with
  | false =>
    simp only [Load, Bool.false_eq_true, if_false, NonTranposeParse_eq, loadedMat, loadedInfo,
      IStream.open, hrows, hcols, hbl, hpl, allValues_pad w _ hcomma]
    exact ⟨trivial, trivial⟩
  | true =>
    cases fuel with
    | zero =>
      simp only [Load, if_true, TranposeParse, tranposeRetry]
      exact ⟨trivial, trivial⟩
    | succ n =>
      simp only [Load, if_true, TranposeParse_eq, loadedMat, loadedInfo,
        IStream.open, hrows, hcols, hbl, hpl, allValues_pad w _ hcomma]
      exact ⟨trivial, trivial⟩

theorem baseLine_cons (c : Char) (hc : c ≠ '\n') (l : List PadField)
    (hl : ∀ f ∈ l, ∀ x ∈ f.body, x ≠ ',' ∧ x ≠ '\n') :
    ∃ k, baseLine k = c :: baseLine l ∧ ∀ f ∈ k, ∀ x ∈ f.body, x ≠ ',' ∧ x ≠ '\n' := by
  by_cases hcomma : c = ','
  · subst hcomma
    cases l with
    | nil =>
      refine ⟨[⟨0, [], 0⟩, ⟨0, [], 0⟩], rfl, ?_⟩
      intro f hf x hx
      simp at hf
      rw [hf] at hx
      simp at hx
    | cons f fs =>
      refine ⟨⟨0, [], 0⟩ :: f :: fs, rfl, ?_⟩
      intro g hg x hx
      rcases List.mem_cons.1 hg with h | h
      · rw [h] at hx
        simp at hx
      · exact hl g h x hx
  · cases l with
    | nil =>
      refine ⟨[⟨0, [c], 0⟩], rfl, ?_⟩
      intro f hf x hx
      simp at hf
      rw [hf] at hx
      simp at hx
      rw [hx]
      exact ⟨hcomma, hc⟩
    | cons f fs =>
      refine ⟨⟨f.lead, c :: f.body, f.trail⟩ :: fs, rfl, ?_⟩
      intro g hg x hx
      rcases List.mem_cons.1 hg with h | h
      · rw [h] at hx
        rcases List.mem_cons.1 hx with h2 | h2
        · rw [h2]; exact ⟨hcomma, hc⟩
        · exact hl f (List.mem_cons_self _ _) x h2
      · exact hl g (List.mem_cons_of_mem _ h) x hx

/-- Every text is made of lines and fields in the way `baseText` puts them together, so
that the statement on inserted spaces speaks of every input as the text without the
spaces. -/
theorem text_has_fields (text : List Char) :
    ∃ ls last, baseText ls last = text ∧
      (∀ l ∈ last :: ls, ∀ f ∈ l, ∀ c ∈ f.body, c ≠ ',' ∧ c ≠ '\n') ∧
      (last = [] ∨ baseLine last ≠ []) := by
  induction text with
  | nil => exact ⟨[], [], rfl, by simp, Or.inl rfl⟩
  | cons c t ih =>
    obtain ⟨ls, last, h1, h2, h3⟩ := ih
    by_cases hc : c = '\n'
    · subst hc
      refine ⟨[] :: ls, last, by rw [baseText, h1]; rfl, ?_, h3⟩
      intro l hl
      rcases List.mem_cons.1 hl with h | h
      · exact h2 l (by rw [h]; exact List.mem_cons_self _ _)
      · rcases List.mem_cons.1 h with h | h
        · rw [h]; simp
        · exact h2 l (List.mem_cons_of_mem _ h)
    · cases ls with
      | nil =>
        obtain ⟨k, hk1, hk2⟩ := baseLine_cons c hc last (h2 last (List.mem_cons_self _ _))
        refine ⟨[], k, by rw [baseText, hk1]; rw [baseText] at h1; rw [h1], ?_, ?_⟩
        · intro l hl
          simp at hl
          rw [hl]
          exact hk2
        · right
          rw [hk1]
          simp
      | cons l ls =>
        obtain ⟨k, hk1, hk2⟩ := baseLine_cons c hc l
          (h2 l (List.mem_cons_of_mem _ (List.mem_cons_self _ _)))
        refine ⟨k :: ls, last, by rw [baseText, hk1]; rw [baseText] at h1; rw [← h1]; rfl, ?_, h3⟩
        intro m hm
        rcases List.mem_cons.1 hm with h | h
        · exact h2 m (by rw [h]; exact List.mem_cons_self _ _)
        · rcases List.mem_cons.1 h with h | h
          · rw [h]; exact hk2
          · exact h2 m (List.mem_cons_of_mem _ (List.mem_cons_of_mem _ h))

/-- C14, witness: the text `"red,1\nblue,2\nx y,"` and the same text with spaces around
its fields, `" red  ,1 \nblue,   2\n  x y, "`, load alike. -/
theorem C14_spaces_insignificant_witness :
    baseText paddedLines paddedLast = "red,1\nblue,2\nx y,".toList ∧
    padText paddedLines paddedLast = " red  ,1 \nblue,   2\n  x y, ".toList ∧
    loadedMat (Load 32 1 (IStream.open (padText paddedLines paddedLast)) true) =
      loadedMat (Load 32 1 (IStream.open (baseText paddedLines paddedLast)) true) ∧
    loadedInfo (Load 32 1 (IStream.open (padText paddedLines paddedLast)) true) =
      loadedInfo (Load 32 1 (IStream.open (baseText paddedLines paddedLast)) true) :=
  ⟨by decide, by decide,
    C14_spaces_insignificant 32 1 paddedLines paddedLast true (by decide) (by decide)⟩

/-! ## The generic token -/

/-- A text is its leading spaces followed by what `skipSpaces` leaves. -/
theorem spaces_split (s : List Char) : ∃ n, s = List.replicate n ' ' ++ skipSpaces s := by
  induction s with
  | nil => exact ⟨0, rfl⟩
  | cons c cs ih =>
    by_cases hc : c = ' '
    · subst hc
      obtain ⟨n, hn⟩ := ih
      refine ⟨n + 1, ?_⟩
      have : skipSpaces (' ' :: cs) = skipSpaces cs := by
        simp [skipSpaces, List.dropWhile_cons]
      rw [this, List.replicate_succ, List.cons_append, ← hn]
    · refine ⟨0, ?_⟩
      have h : (c == ' ') = false := by simpa using hc
      simp [skipSpaces, List.dropWhile_cons, h]

/-- C15, counterexample: for the field `New York` the rule of `CreateCharRule` yields
`New` only and leaves the input in front of `York`, not at the delimiter. -/
theorem C15_token_stops_at_space :
    CreateCharRule "New York,x".toList = some ("New".toList, "York,x".toList) := by
  decide

/-- C15, amended: for a field whose text between its leading and trailing spaces holds
none of `' '`, `','`, `'\r'`, `'\n'`, and that is followed by a `','`, a `'\r'`, a
`'\n'` or the end of the input, the rule of `CreateCharRule` yields that text and
leaves the input at the delimiter, the line terminator or the end.  On every input the
rule succeeds and splits the input into its leading spaces (all of them), the token,
the spaces that follow the token (all of them) and the input it leaves: the token is
the longest run of characters that are none of `' '`, `','`, `'\r'`, `'\n'` (it ends
in front of one of these or at the end of the input, so at the first space inside a
field), and the input is left at the first character after the spaces that follow the
token. -/
theorem C15_token_without_inner_space (lead trail : Nat) (core rest : List Char)
    (hcore : ∀ c ∈ core, c ≠ ' ' ∧ c ≠ ',' ∧ c ≠ '\r' ∧ c ≠ '\n')
    (hrest : ∀ c ∈ rest.head?, c = ',' ∨ c = '\r' ∨ c = '\n') :
    CreateCharRule (List.replicate lead ' ' ++ (core ++ (List.replicate trail ' ' ++ rest))) =
      some (core, rest) ∧
    ∀ s : List Char, ∃ (n m : Nat) (tok r : List Char),
      s = List.replicate n ' ' ++ (tok ++ (List.replicate m ' ' ++ r)) ∧
      CreateCharRule s = some (tok, r) ∧
      (∀ c ∈ (tok ++ (List.replicate m ' ' ++ r)).head?, c ≠ ' ') ∧
      (∀ c ∈ tok, c ≠ ' ' ∧ c ≠ ',' ∧ c ≠ '\r' ∧ c ≠ '\n') ∧
      (∀ c ∈ (List.replicate m ' ' ++ r).head?, c = ' ' ∨ c = ',' ∨ c = '\r' ∨ c = '\n') ∧
      ∀ c ∈ r.head?, c ≠ ' ' := by
  have htok : ∀ c : Char, isTokenChar c = true ↔ c ≠ ' ' ∧ c ≠ ',' ∧ c ≠ '\r' ∧ c ≠ '\n' := by
    intro c
    simp [isTokenChar, and_assoc]
  constructor
  · have hc1 : ∀ c ∈ core, isTokenChar c = true := fun c hc => (htok c).2 (hcore c hc)
    have hr1 : ∀ c ∈ rest.head?, c ≠ ' ' := by
      intro c hc
      rcases hrest c hc with h | h | h <;> rw [h] <;> decide
    have hstop : ∀ c ∈ (List.replicate trail ' ' ++ rest).head?, isTokenChar c = false := by
      intro c hc
      cases trail with
      | zero =>
        rcases hrest c (by simpa using hc) with h | h | h <;> rw [h] <;> decide
      | succ n =>
        simp [List.replicate_succ] at hc
        rw [← hc]
        decide
    unfold CreateCharRule
    simp only [skipSpaces_replicate_append]
    cases core with
    | nil =>
      have hstop2 : ∀ c ∈ rest.head?, isTokenChar c = false := by
        intro c hc
        rcases hrest c hc with h | h | h <;> rw [h] <;> decide
      rw [List.nil_append, skipSpaces_replicate _ _ hr1]
      have h1 := takeWhile_append_stop isTokenChar [] rest (by simp) hstop2
      have h2 := dropWhile_append_stop isTokenChar [] rest (by simp) hstop2
      simp only [List.nil_append] at h1 h2
      have h3 := skipSpaces_replicate 0 rest hr1
      simp only [List.replicate_zero, List.nil_append] at h3
      rw [h1, h2, h3]
    | cons c cs =>
      have hne := (hcore c (List.mem_cons_self _ _)).1
      have hs : skipSpaces (c :: cs ++ (List.replicate trail ' ' ++ rest)) =
          c :: cs ++ (List.replicate trail ' ' ++ rest) := by
        simp [skipSpaces, List.dropWhile_cons, hne]
      rw [hs, takeWhile_append_stop isTokenChar _ _ hc1 hstop,
        dropWhile_append_stop isTokenChar _ _ hc1 hstop, skipSpaces_replicate _ _ hr1]
  · intro s
    obtain ⟨n, hn⟩ := spaces_split s
    obtain ⟨m, hm⟩ := spaces_split ((skipSpaces s).dropWhile isTokenChar)
    have hsplit : skipSpaces s = (skipSpaces s).takeWhile isTokenChar ++
        (List.replicate m ' ' ++ skipSpaces ((skipSpaces s).dropWhile isTokenChar)) := by
      rw [← hm, List.takeWhile_append_dropWhile]
    refine ⟨n, m, (skipSpaces s).takeWhile isTokenChar,
      skipSpaces ((skipSpaces s).dropWhile isTokenChar), ?_, rfl, ?_, ?_, ?_,
      skipSpaces_head _⟩
    · rw [← hsplit]
      exact hn
    · rw [← hsplit]
      exact skipSpaces_head s
    · intro c hc
      exact (htok c).1 (List.mem_takeWhile_imp hc)
    · intro c hc
      rw [← hm] at hc
      have hnot := List.head?_dropWhile_not isTokenChar (skipSpaces s)
      rw [Option.mem_def.1 hc] at hnot
      have hfalse : isTokenChar c = false := by simpa using hnot
      by_contra hcon
      have : isTokenChar c = true := by
        apply (htok c).2
        refine ⟨?_, ?_, ?_, ?_⟩ <;> intro h <;> exact hcon (by simp [h])
      rw [hfalse] at this
      exact absurd this (by simp)

/-- C15, witness: the field ` red  ` in front of `,1` yields `red` and leaves `,1`. -/
theorem C15_token_without_inner_space_witness :
    CreateCharRule (List.replicate 1 ' ' ++ ("red".toList ++ (List.replicate 2 ' ' ++ ",1".toList)))
      = some ("red".toList, ",1".toList) :=
  (C15_token_without_inner_space 1 2 "red".toList ",1".toList (by decide) (by decide)).1

end LoadCSV

namespace Tasks

/-- C20: the constructor of `CopyTask` throws `std::invalid_argument` if and only if
`maxLength <= 1` or `nRepeats = 0`; it succeeds exactly for `maxLength >= 2` and
`nRepeats >= 1`, and the object then holds `maxLength`, `nRepeats` and `addSeparator`
unchanged. -/
theorem C20_CopyTask_constructor (maxLength nRepeats : Nat) (addSeparator : Bool) :
    ((∃ what, CopyTask.new maxLength nRepeats addSeparator =
        .error (.invalid_argument what)) ↔ (maxLength ≤ 1 ∨ nRepeats = 0)) ∧
    (∀ task, CopyTask.new maxLength nRepeats addSeparator = .ok task ↔
      (2 ≤ maxLength ∧ 1 ≤ nRepeats ∧ task.maxLength = maxLength ∧
        task.nRepeats = nRepeats ∧ task.addSeparator = addSeparator)) := by
  unfold CopyTask.new
  by_cases h1 : maxLength ≤ 1
  · rw [if_pos h1]
    refine ⟨⟨fun _ => Or.inl h1, fun _ => ⟨_, rfl⟩⟩, ?_⟩
    intro task
    constructor
    · intro h; exact absurd h (by simp)
    · rintro ⟨h, -⟩; omega
  · rw [if_neg h1]
    by_cases h2 : nRepeats ≤ 0
    · rw [if_pos h2]
      refine ⟨⟨fun _ => Or.inr (by omega), fun _ => ⟨_, rfl⟩⟩, ?_⟩
      intro task
      constructor
      · intro h; exact absurd h (by simp)
      · rintro ⟨-, h, -⟩; omega
    · rw [if_neg h2]
      refine ⟨⟨?_, ?_⟩, ?_⟩
      · rintro ⟨what, h⟩; exact absurd h (by simp)
      · rintro (h | h) <;> omega
      · intro task
        constructor
        · intro h
          simp only [Except.ok.injEq] at h
          subst h
          exact ⟨by omega, by omega, rfl, rfl, rfl⟩
        · rintro ⟨-, -, h3, h4, h5⟩
          cases task
          simp only at h3 h4 h5
          simp [h3, h4, h5]

end Tasks
